import Mathlib

/-!
Verification development for the `data_scrap` identity-resolution core
(`find_missing_players_with_duplicates.py` and `find_cross_duplicates.py`).

The Python code is shallowly embedded: JSON values become the inductive
`Value`, records become association lists, Python dict/set behaviour is
modelled by insertion-ordered association lists with first-key lookup,
floats are modelled by `ℚ` (all similarity arithmetic is exact rational
arithmetic: `difflib` ratios are of the form `2*M/(la+lb)`), and the
Unicode tables consulted by `unicodedata` are modelled explicitly for the
Latin-1 repertoire (see `nfkdTable`).
-/

/-- A JSON-like value, as loaded by `load_json_path`: `null`, strings,
integers, booleans, arrays and objects. -/
inductive Value where
  | null : Value
  | str (s : String) : Value
  | int (n : Int) : Value
  | bool (b : Bool) : Value
  | list (l : List Value) : Value
  | obj (o : List (String × Value)) : Value

/-- A player record: a JSON object, i.e. an association list of fields.
Keys are unique (Python dicts), lookup takes the first binding. -/
abbrev PRec := List (String × Value)

/-- Python truthiness of a JSON value (`bool(v)`). -/
def Value.truthy : Value → Bool
  | .null => false
  | .str s => s ≠ ""
  | .int n => n ≠ 0
  | .bool b => b
  | .list l => !l.isEmpty
  | .obj o => !o.isEmpty

/-- `p.get(k)`: `null` models Python's `None` result for a missing key
(and an explicit JSON `null` value, which the code treats identically). -/
def pget (p : PRec) (k : String) : Value :=
  (p.lookup k).getD Value.null

/-- Python's short-circuit `a or b`: the first operand if truthy, else the
second. -/
def orE (a b : Value) : Value :=
  if a.truthy then a else b

/-- `str.isdigit()` restricted to ASCII digits: true for a nonempty string
of digits.  (Python's `isdigit` also accepts some non-ASCII digit
characters; the repository's ids are ASCII.) -/
def pyIsDigit (s : String) : Bool :=
  s ≠ "" && s.data.all Char.isDigit

mutual
/-- `str(v)`: Python's string conversion of a JSON-decoded value. -/
def pyStr : Value → String
  | .null => "None"
  | .str s => s
  | .int n => toString n
  | .bool b => if b then "True" else "False"
  | .list l => "[" ++ String.intercalate ", " (pyStrList l) ++ "]"
  | .obj o => "\x7b" ++ String.intercalate ", " (pyStrObj o) ++ "\x7d"

/-- `repr` of each element of a list (Python `str` of a list uses element
`repr`s; strings get quotes). -/
def pyStrList : List Value → List String
  | [] => []
  | .str s :: vs => ("'" ++ s ++ "'") :: pyStrList vs
  | v :: vs => pyStr v :: pyStrList vs

def pyStrObj : List (String × Value) → List String
  | [] => []
  | (k, .str s) :: kvs => ("'" ++ k ++ "': '" ++ s ++ "'") :: pyStrObj kvs
  | (k, v) :: kvs => ("'" ++ k ++ "': " ++ pyStr v) :: pyStrObj kvs
end

/-! ## The Normalizer (`normalize_name`)

`normalize_name` applies `unicodedata.normalize("NFKD", ·)`, strips
combining marks, lowercases, removes `[^\w\s]`, collapses `\s+` runs to a
single space and strips.  The Unicode tables are modelled for the Latin-1
repertoire: canonical decompositions of the accented Latin-1 letters,
combining marks U+0300–U+036F, ASCII + Latin-1 lowercasing.  Characters
outside the modelled repertoire are left unchanged and treated as word
characters, matching Python for letters. -/

/-- Combining diacritical marks (`unicodedata.combining(c) != 0` for the
modelled repertoire). -/
def combining (c : Char) : Bool :=
  0x300 ≤ c.toNat && c.toNat ≤ 0x36F

/-- Canonical (NFKD) decompositions of the decomposable Latin-1 letters:
base letter plus combining mark. -/
def nfkdTable : List (Char × List Char) :=
  [ ('À', ['A', '̀']), ('Á', ['A', '́']), ('Â', ['A', '̂']),
    ('Ã', ['A', '̃']), ('Ä', ['A', '̈']), ('Å', ['A', '̊']),
    ('Ç', ['C', '̧']),
    ('È', ['E', '̀']), ('É', ['E', '́']), ('Ê', ['E', '̂']),
    ('Ë', ['E', '̈']),
    ('Ì', ['I', '̀']), ('Í', ['I', '́']), ('Î', ['I', '̂']),
    ('Ï', ['I', '̈']),
    ('Ñ', ['N', '̃']),
    ('Ò', ['O', '̀']), ('Ó', ['O', '́']), ('Ô', ['O', '̂']),
    ('Õ', ['O', '̃']), ('Ö', ['O', '̈']),
    ('Ù', ['U', '̀']), ('Ú', ['U', '́']), ('Û', ['U', '̂']),
    ('Ü', ['U', '̈']),
    ('Ý', ['Y', '́']),
    ('à', ['a', '̀']), ('á', ['a', '́']), ('â', ['a', '̂']),
    ('ã', ['a', '̃']), ('ä', ['a', '̈']), ('å', ['a', '̊']),
    ('ç', ['c', '̧']),
    ('è', ['e', '̀']), ('é', ['e', '́']), ('ê', ['e', '̂']),
    ('ë', ['e', '̈']),
    ('ì', ['i', '̀']), ('í', ['i', '́']), ('î', ['i', '̂']),
    ('ï', ['i', '̈']),
    ('ñ', ['n', '̃']),
    ('ò', ['o', '̀']), ('ó', ['o', '́']), ('ô', ['o', '̂']),
    ('õ', ['o', '̃']), ('ö', ['o', '̈']),
    ('ù', ['u', '̀']), ('ú', ['u', '́']), ('û', ['u', '̂']),
    ('ü', ['u', '̈']),
    ('ý', ['y', '́']), ('ÿ', ['y', '̈']) ]

/-- NFKD decomposition of one character. -/
def nfkdChar (c : Char) : List Char :=
  ((nfkdTable.lookup c).getD [c])

/-- `str.lower()` character map (ASCII and Latin-1). -/
def lowerChar (c : Char) : Char :=
  if 'A' ≤ c && c ≤ 'Z' then Char.ofNat (c.toNat + 32)
  else if 0xC0 ≤ c.toNat && c.toNat ≤ 0xDE && c.toNat ≠ 0xD7 then Char.ofNat (c.toNat + 32)
  else c

/-- Whitespace recognised by the regex class `\s`. -/
def pySpace (c : Char) : Bool :=
  c = ' ' || c = '\t' || c = '\n' || c = '\r' || c = '\x0b' || c = '\x0c'

/-- Word characters recognised by the regex class `\w`: ASCII
alphanumerics and underscore, plus the non-ASCII letters of the modelled
repertoire (all non-ASCII characters except the Latin-1 punctuation block
and × ÷). -/
def isWordChar (c : Char) : Bool :=
  (c.isAlphanum || c = '_') ||
    (0xC0 ≤ c.toNat && c.toNat ≠ 0xD7 && c.toNat ≠ 0xF7)

/-- One-pass collapse of whitespace runs: the flag records whether the
previous character belonged to a whitespace run already replaced by a
single space. -/
def collapseAux : Bool → List Char → List Char
  | _, [] => []
  | inRun, c :: cs =>
    if pySpace c then
      if inRun then collapseAux true cs else ' ' :: collapseAux true cs
    else c :: collapseAux false cs

/-- `re.sub(r"\s+", " ", s)`: collapse each maximal whitespace run to one
space. -/
def collapseWS (l : List Char) : List Char :=
  collapseAux false l

/-- `str.strip()`. -/
def pyStrip (l : List Char) : List Char :=
  ((l.dropWhile pySpace).reverse.dropWhile pySpace).reverse

/-- `normalize_name` on an actual string. -/
def normalize_name (name : String) : String :=
  let nfkd := (name.data.map nfkdChar).flatten
  let no_diac := nfkd.filter (fun c => !combining c)
  let lowered := no_diac.map lowerChar
  let kept := lowered.filter (fun c => isWordChar c || pySpace c)
  String.mk (pyStrip (collapseWS kept))

/-- `normalize_name` on a JSON value: non-string input yields `""`
(the `isinstance(name, str)` guard). -/
def normalizeV : Value → String
  | .str s => normalize_name s
  | _ => ""

/-- One decimal digit character. -/
def digitChar (d : Nat) : Char := Char.ofNat (48 + d)

/-- The decimal digits of `n`, most significant first, by structural
recursion on a fuel argument; `fuel ≥ n` always suffices (the argument
shrinks by a factor of ten per step). -/
def natStrData : Nat → Nat → List Char
  | 0, n => [digitChar n]
  | fuel + 1, n =>
    if n < 10 then [digitChar n]
    else natStrData fuel (n / 10) ++ [digitChar (n % 10)]

/-- Python's `str(n)` / an f-string interpolation of a nonnegative
integer index. -/
def natStr (n : Nat) : String := String.mk (natStrData n n)

theorem natStrData_lt {fuel n : Nat} (h : n < 10) :
    natStrData fuel n = [digitChar n] := by
  cases fuel with
  | zero => rfl
  | succ fuel => rw [natStrData]; simp [h]

theorem natStrData_ge {fuel n : Nat} (h : ¬n < 10) :
    natStrData (fuel + 1) n = natStrData fuel (n / 10) ++
      [digitChar (n % 10)] := by
  rw [natStrData]; simp [h]

/-- With sufficient fuel the digit expansion does not depend on the exact
fuel value. -/
theorem natStrData_fuel : ∀ fuel fuel' n, n ≤ fuel → n ≤ fuel' →
    natStrData fuel n = natStrData fuel' n := by
  intro fuel
  induction fuel with
  | zero =>
    intro fuel' n h h'
    have : n = 0 := by omega
    subst this
    rw [natStrData_lt (by omega), natStrData_lt (by omega)]
  | succ fuel ih =>
    intro fuel' n h h'
    by_cases h10 : n < 10
    · rw [natStrData_lt h10, natStrData_lt h10]
    · cases fuel' with
      | zero => omega
      | succ fuel' =>
        rw [natStrData_ge h10, natStrData_ge h10]
        have hq : n / 10 ≤ fuel := by omega
        have hq' : n / 10 ≤ fuel' := by omega
        rw [ih fuel' (n / 10) hq hq']

theorem natStrData_ne_nil (fuel n : Nat) : natStrData fuel n ≠ [] := by
  cases fuel with
  | zero => simp [natStrData]
  | succ fuel =>
    by_cases h : n < 10
    · rw [natStrData_lt h]; simp
    · rw [natStrData_ge h]; simp

theorem digitChar_inj {m n : Nat} (hm : m < 10) (hn : n < 10)
    (h : digitChar m = digitChar n) : m = n := by
  interval_cases m <;> interval_cases n <;>
    first
    | rfl
    | exact absurd h (by decide)

theorem natStrData_inj : ∀ m n fuel fuel', m ≤ fuel → n ≤ fuel' →
    natStrData fuel m = natStrData fuel' n → m = n := by
  intro m
  induction m using Nat.strong_induction_on with
  | _ m ih =>
    intro n fuel fuel' hmf hnf h
    by_cases hm : m < 10 <;> by_cases hn : n < 10
    · rw [natStrData_lt hm, natStrData_lt hn] at h
      exact digitChar_inj hm hn (by simpa using h)
    · obtain ⟨f, rfl⟩ : ∃ f, fuel' = f + 1 := ⟨fuel' - 1, by omega⟩
      rw [natStrData_lt hm, natStrData_ge hn] at h
      have hlen := congrArg List.length h
      rw [List.length_append] at hlen
      simp only [List.length_singleton] at hlen
      have h2 := List.length_pos.mpr (natStrData_ne_nil f (n / 10))
      omega
    · obtain ⟨f, rfl⟩ : ∃ f, fuel = f + 1 := ⟨fuel - 1, by omega⟩
      rw [natStrData_ge hm, natStrData_lt hn] at h
      have hlen := congrArg List.length h
      rw [List.length_append] at hlen
      simp only [List.length_singleton] at hlen
      have h2 := List.length_pos.mpr (natStrData_ne_nil f (m / 10))
      omega
    · obtain ⟨f, rfl⟩ : ∃ f, fuel = f + 1 := ⟨fuel - 1, by omega⟩
      obtain ⟨f', rfl⟩ : ∃ f', fuel' = f' + 1 := ⟨fuel' - 1, by omega⟩
      rw [natStrData_ge hm, natStrData_ge hn] at h
      have h' := congrArg List.reverse h
      simp only [List.reverse_append, List.reverse_cons, List.reverse_nil,
        List.nil_append, List.singleton_append, List.cons.injEq] at h'
      have hdig : m % 10 = n % 10 :=
        digitChar_inj (Nat.mod_lt _ (by omega)) (Nat.mod_lt _ (by omega)) h'.1
      have hpre : natStrData f (m / 10) = natStrData f' (n / 10) := by
        have := congrArg List.reverse h'.2
        simpa using this
      have hq : m / 10 = n / 10 :=
        ih (m / 10) (by omega) (n / 10) f f' (by omega) (by omega) hpre
      omega

theorem natStr_inj {m n : Nat} (h : natStr m = natStr n) : m = n := by
  apply natStrData_inj m n m n le_rfl le_rfl
  have := congrArg String.data h
  simpa [natStr] using this

/-! ## KeyExtractor and GroupBuilder (`find_missing_players_with_duplicates.py`) -/

/-- `v is None`. -/
def Value.isNull : Value → Bool
  | .null => true
  | _ => false

/-- The digit-guarded fallback through the generic `id` field:
`isinstance(raw_id, int) or (isinstance(raw_id, str) and
raw_id.isdigit())` (a Python `bool` is an `int`, so booleans pass the
first test). -/
def idFallback (p : PRec) : Value :=
  match pget p "id" with
  | .int n => .int n
  | .bool b => .bool b
  | .str s => if pyIsDigit s then .str s else .null
  | _ => .null

/-- The identifier-alias probe shared by `key_for_player`,
`build_target_lookup`, `find_missing_and_flag_duplicates` and
`canonical_keys`:
`p.get("transfermarkt_id") or p.get("transfermarktId") or
 p.get("transfermarkt id") or p.get("transfermarkt")`,
then, when that yields `None`, the digit-guarded fallback to `p.get("id")`. -/
def resolveTid (p : PRec) : Value :=
  let tid := orE (pget p "transfermarkt_id") (orE (pget p "transfermarktId")
      (orE (pget p "transfermarkt id") (pget p "transfermarkt")))
  if tid.isNull then idFallback p else tid

/-- `key_for_player`: 0–2 keys, `tid::` key first, then `name::` key. -/
def key_for_player (p : PRec) : List String :=
  let tid := resolveTid p
  let keys : List String := if tid.isNull then [] else ["tid::" ++ pyStr tid]
  let nn := normalizeV (orE (pget p "name") (.str ""))
  if nn ≠ "" then keys ++ ["name::" ++ nn] else keys

/-- One entry of a `by_key` bucket in `find_duplicates`:
`{"index": idx, "player": p}`. -/
structure IdxPlayer where
  index : Nat
  player : PRec

/-- Append `v` to the bucket of `k`, creating the bucket at the end if
absent: `d.setdefault(k, []).append(v)` on an insertion-ordered dict. -/
def bucketAdd {κ α : Type} [DecidableEq κ] (m : List (κ × List α)) (k : κ) (v : α) :
    List (κ × List α) :=
  match m with
  | [] => [(k, [v])]
  | (k', l) :: rest =>
    if k' = k then (k', l ++ [v]) :: rest else (k', l) :: bucketAdd rest k v

/-- Register one player under each of its keys (or under the positional
fallback key when it has none). -/
def byKeyStep (m : List (String × List IdxPlayer)) (ip : Nat × PRec) :
    List (String × List IdxPlayer) :=
  let keys := key_for_player ip.2
  if keys.isEmpty then
    bucketAdd m ("index::" ++ natStr ip.1) ⟨ip.1, ip.2⟩
  else
    keys.foldl (fun m k => bucketAdd m k ⟨ip.1, ip.2⟩) m

/-- The `by_key` dict of `find_duplicates`. -/
def buildByKey (players : List PRec) : List (String × List IdxPlayer) :=
  players.enum.foldl byKeyStep []

/-- Insertion sort on naturals; models Python's `sorted` on the index
tuples (stable ascending; the sorted keys here are distinct). -/
def insertNat (x : Nat) : List Nat → List Nat
  | [] => [x]
  | y :: ys => if x ≤ y then x :: y :: ys else y :: insertNat x ys

def sortNat : List Nat → List Nat
  | [] => []
  | x :: xs => insertNat x (sortNat xs)

/-- One duplicate group of `find_duplicates`:
`{"key": k, "indices": [...], "members": [...]}`. -/
structure IntraGroup where
  key : String
  indices : List Nat
  members : List PRec

/-- The group-collection loop of `find_duplicates`: buckets with more
than one occurrence, skipping a bucket whose sorted index tuple was
already seen. -/
def collectGroups : List (String × List IdxPlayer) → List (List Nat) →
    List IntraGroup
  | [], _ => []
  | (k, lst) :: rest, seen =>
    if lst.length > 1 then
      let memberIds := sortNat (lst.map (·.index))
      if seen.contains memberIds then collectGroups rest seen
      else ⟨k, lst.map (·.index), lst.map (·.player)⟩ ::
        collectGroups rest (memberIds :: seen)
    else collectGroups rest seen

/-- `find_duplicates(players)`. -/
def find_duplicates (players : List PRec) : List IntraGroup :=
  collectGroups (buildByKey players) []

/-- `set.add`-style insertion into a list modelling a Python set:
append when not already present. -/
def setAdd {α : Type} [BEq α] (s : List α) (x : α) : List α :=
  if s.contains x then s else s ++ [x]

/-- `build_target_lookup(target_players) -> (ids, normnames)`. -/
def build_target_lookup (target : List PRec) : List String × List String :=
  target.foldl
    (fun (acc : List String × List String) p =>
      let tid := resolveTid p
      let ids := if tid.isNull then acc.1 else setAdd acc.1 (pyStr tid)
      let nn := normalizeV (orE (pget p "name") (.str ""))
      let nns := if nn ≠ "" then setAdd acc.2 nn else acc.2
      (ids, nns))
    ([], [])

/-! ## The SimilarityScorer (`similar` / `difflib.SequenceMatcher.ratio`)

`similar(a, b)` is `SequenceMatcher(None, a, b).ratio()`.  The embedding
follows `difflib` exactly: `__chain_b` builds `b2j` (positions of each
element of `b`, with the autojunk rule discarding "popular" elements when
`len(b) >= 200`); `find_longest_match` runs the row dynamic programme and
then the two non-junk extension loops (`isjunk` is `None`, so the junk
set is empty and the two junk extension loops never execute and are
omitted); `get_matching_blocks` recurses on both sides of each block, and
`ratio` is `2*matches/(la+lb)` (`1.0` when both strings are empty),
computed in `ℚ`. -/

/-- `__chain_b`: positions of every element of `b`, in increasing order,
with the autojunk pruning of popular elements for `len(b) >= 200`. -/
def b2jOf (b : List Char) : List (Char × List Nat) :=
  let raw := b.enum.foldl (fun m jc => bucketAdd m jc.2 jc.1) []
  if 200 ≤ b.length then
    raw.filter (fun e => e.2.length ≤ b.length / 100 + 1)
  else raw

/-- `b2j.get(c, [])`. -/
def b2jGet (m : List (Char × List Nat)) (c : Char) : List Nat :=
  (m.lookup c).getD []

/-- `j2len.get(j - 1, 0)`: for `j = 0` Python reads key `-1`, which is
never present, giving `0`. -/
def getPrev (f : Nat → Nat) : Nat → Nat
  | 0 => 0
  | j + 1 => f j

/-- The inner loop of `find_longest_match` over the candidate `j`s of one
row `i`: `k = newj2len[j] = j2len.get(j-1, 0) + 1`, updating the best
block on strict improvement (`if k > bestsize`).  `j2len` is the previous
row's map (a total function with default `0`), the second argument the
row map being built. -/
def innerLoop (i : Nat) (j2len : Nat → Nat) :
    List Nat → (Nat → Nat) → Nat × Nat × Nat → (Nat → Nat) × (Nat × Nat × Nat)
  | [], acc, best => (acc, best)
  | j :: js, acc, best =>
    innerLoop i j2len js
      (fun x => if x = j then getPrev j2len j + 1 else acc x)
      (if best.2.2 < getPrev j2len j + 1 then
        (i + 1 - (getPrev j2len j + 1), j + 1 - (getPrev j2len j + 1),
          getPrev j2len j + 1)
      else best)

/-- The outer loop of `find_longest_match`: `for i in range(alo, ahi)`,
written as recursion on the remaining row count.  The candidate list is
`b2j.get(a[i], [])` with `continue` below `blo` and `break` at `bhi`
(the position lists are increasing, so the filter/takeWhile pair is the
loop's continue/break behaviour). -/
def outerLoop (a : List Char) (m : List (Char × List Nat)) (blo bhi : Nat) :
    Nat → Nat → (Nat → Nat) → Nat × Nat × Nat → Nat × Nat × Nat
  | _, 0, _, best => best
  | i, cnt + 1, j2len, best =>
    let js := ((b2jGet m (a.getD i ' ')).filter (fun j => blo ≤ j)).takeWhile
      (fun j => j < bhi)
    let r := innerLoop i j2len js (fun _ => 0) best
    outerLoop a m blo bhi (i + 1) cnt r.1 r.2

/-- First extension loop: grow the block downwards over equal
(non-junk; the junk set is empty since `isjunk=None`) elements.  The
structural fuel argument is initialised to `besti`, which the loop
decrements in lockstep, so the fuel runs out exactly when the
`besti > alo` guard must fail. -/
def extendLower (a b : List Char) (alo blo : Nat) :
    Nat → Nat × Nat × Nat → Nat × Nat × Nat
  | 0, t => t
  | fuel + 1, (besti, bestj, bestsize) =>
    if alo < besti ∧ blo < bestj ∧
        a.getD (besti - 1) ' ' = b.getD (bestj - 1) ' ' then
      extendLower a b alo blo fuel (besti - 1, bestj - 1, bestsize + 1)
    else (besti, bestj, bestsize)

/-- Second extension loop: grow the block upwards over equal elements.
The fuel is initialised to `ahi`, an upper bound on the number of
iterations permitted by the `besti + bestsize < ahi` guard. -/
def extendUpper (a b : List Char) (ahi bhi : Nat) :
    Nat → Nat × Nat × Nat → Nat × Nat × Nat
  | 0, t => t
  | fuel + 1, (besti, bestj, bestsize) =>
    if besti + bestsize < ahi ∧ bestj + bestsize < bhi ∧
        a.getD (besti + bestsize) ' ' = b.getD (bestj + bestsize) ' ' then
      extendUpper a b ahi bhi fuel (besti, bestj, bestsize + 1)
    else (besti, bestj, bestsize)

/-- `find_longest_match(alo, ahi, blo, bhi)`.  The two junk extension
loops of `difflib` are omitted: `similar` passes `isjunk=None`, so the
junk set is empty and they never execute. -/
def find_longest_match (a b : List Char) (m : List (Char × List Nat))
    (alo ahi blo bhi : Nat) : Nat × Nat × Nat :=
  let dp := outerLoop a m blo bhi alo (ahi - alo) (fun _ => 0) (alo, blo, 0)
  extendUpper a b ahi bhi ahi (extendLower a b alo blo dp.1 dp)

/-- The shape invariant of a `find_longest_match` result: either the
zero-size initial triple, or a block lying inside the requested
ranges. -/
def FlmInv (alo ahi blo bhi : Nat) (t : Nat × Nat × Nat) : Prop :=
  (t.2.2 = 0 ∧ t.1 = alo ∧ t.2.1 = blo) ∨
  (1 ≤ t.2.2 ∧ alo ≤ t.1 ∧ t.1 + t.2.2 ≤ ahi ∧ blo ≤ t.2.1 ∧
    t.2.1 + t.2.2 ≤ bhi)

theorem flmInv_mk {alo ahi blo bhi i j k : Nat} :
    FlmInv alo ahi blo bhi (i, j, k) ↔
      (k = 0 ∧ i = alo ∧ j = blo) ∨
      (1 ≤ k ∧ alo ≤ i ∧ i + k ≤ ahi ∧ blo ≤ j ∧ j + k ≤ bhi) :=
  Iff.rfl

/-- Row-map invariant: every entry of a `j2len` row map is either absent
(zero) or records a run ending at its key inside the `b` range, and no
run is longer than the number of processed rows. -/
def RowInv (alo blo bound : Nat) (f : Nat → Nat) : Prop :=
  ∀ j, f j + alo ≤ bound ∧ (f j = 0 ∨ f j + blo ≤ j + 1)

theorem innerLoop_inv {alo ahi blo bhi : Nat} :
    ∀ (js : List Nat) (j2len acc : Nat → Nat) (best : Nat × Nat × Nat)
      (i : Nat),
      (∀ j ∈ js, blo ≤ j ∧ j < bhi) → alo ≤ i → i < ahi →
      RowInv alo blo i j2len → RowInv alo blo (i + 1) acc →
      FlmInv alo ahi blo bhi best →
      RowInv alo blo (i + 1) (innerLoop i j2len js acc best).1 ∧
      FlmInv alo ahi blo bhi (innerLoop i j2len js acc best).2 := by
  intro js
  induction js with
  | nil => intro _ _ _ _ _ _ _ hj2 hacc hbest; exact ⟨hacc, hbest⟩
  | cons j js ih =>
    intro j2len acc best i hjs hal hah hj2 hacc hbest
    obtain ⟨hjb, hjh⟩ := hjs j (by simp)
    have hK1 : getPrev j2len j + 1 + alo ≤ i + 1 := by
      cases j with
      | zero => simp only [getPrev]; omega
      | succ n => have := (hj2 n).1; simp only [getPrev]; omega
    have hK2 : getPrev j2len j + 1 + blo ≤ j + 1 := by
      cases j with
      | zero => simp only [getPrev]; omega
      | succ n =>
        rcases (hj2 n).2 with hz | hb
        · simp only [getPrev, hz]; omega
        · simp only [getPrev]; omega
    have haccNew : RowInv alo blo (i + 1)
        (fun x => if x = j then getPrev j2len j + 1 else acc x) := by
      intro x
      by_cases hxj : x = j
      · subst hxj
        simp only [if_pos rfl]
        exact ⟨hK1, Or.inr hK2⟩
      · simp only [if_neg hxj]
        exact hacc x
    have hbestNew : FlmInv alo ahi blo bhi
        (if best.2.2 < getPrev j2len j + 1 then
          (i + 1 - (getPrev j2len j + 1), j + 1 - (getPrev j2len j + 1),
            getPrev j2len j + 1)
        else best) := by
      by_cases hlt : best.2.2 < getPrev j2len j + 1
      · rw [if_pos hlt]
        have c1 : 1 ≤ getPrev j2len j + 1 := by omega
        have c2 : alo ≤ i + 1 - (getPrev j2len j + 1) := by omega
        have c3 : i + 1 - (getPrev j2len j + 1) + (getPrev j2len j + 1) ≤ ahi := by
          omega
        have c4 : blo ≤ j + 1 - (getPrev j2len j + 1) := by omega
        have c5 : j + 1 - (getPrev j2len j + 1) + (getPrev j2len j + 1) ≤ bhi := by
          omega
        exact Or.inr ⟨c1, c2, c3, c4, c5⟩
      · rw [if_neg hlt]
        exact hbest
    simp only [innerLoop]
    exact ih _ _ _ i (fun x hx => hjs x (by simp [hx])) hal hah hj2 haccNew
      hbestNew

theorem outerLoop_inv {a : List Char} {m : List (Char × List Nat)}
    {alo ahi blo bhi : Nat} :
    ∀ (cnt i : Nat) (j2len : Nat → Nat) (best : Nat × Nat × Nat),
      (cnt = 0 ∨ i + cnt ≤ ahi) → alo ≤ i →
      RowInv alo blo i j2len →
      FlmInv alo ahi blo bhi best →
      FlmInv alo ahi blo bhi (outerLoop a m blo bhi i cnt j2len best) := by
  intro cnt
  induction cnt with
  | zero => intro i j2len best _ _ _ hbest; simpa [outerLoop] using hbest
  | succ cnt ih =>
    intro i j2len best hcnt hal hj2 hbest
    have hiah : i < ahi := by omega
    simp only [outerLoop]
    have hjs : ∀ j ∈ ((b2jGet m (a.getD i ' ')).filter
        (fun j => decide (blo ≤ j))).takeWhile (fun j => decide (j < bhi)),
        blo ≤ j ∧ j < bhi := by
      intro j hj
      have hpred := List.mem_takeWhile_imp hj
      have hmem : j ∈ (b2jGet m (a.getD i ' ')).filter
          (fun j => decide (blo ≤ j)) :=
        (List.takeWhile_prefix _).sublist.subset hj
      have hblo := (List.mem_filter.mp hmem).2
      exact ⟨by simpa using hblo, by simpa using hpred⟩
    have h := @innerLoop_inv alo ahi blo bhi
      _ j2len (fun _ => 0) best i hjs hal hiah hj2
      (fun j => ⟨by show 0 + alo ≤ i + 1; omega, Or.inl rfl⟩) hbest
    exact ih (i + 1) _ _ (by omega) (by omega)
      (fun j => ⟨by have := (h.1 j).1; omega, (h.1 j).2⟩) h.2

theorem extendLower_inv {a b : List Char} {alo ahi blo bhi : Nat} :
    ∀ (fuel besti bestj bestsize : Nat),
      FlmInv alo ahi blo bhi (besti, bestj, bestsize) →
      FlmInv alo ahi blo bhi
        (extendLower a b alo blo fuel (besti, bestj, bestsize)) := by
  intro fuel
  induction fuel with
  | zero => intro besti bestj bestsize hinv; exact hinv
  | succ fuel ih =>
    intro besti bestj bestsize hinv
    rw [flmInv_mk] at hinv
    rw [extendLower]
    split
    · rename_i hcond
      apply ih
      rw [flmInv_mk]
      rcases hinv with ⟨h0, hi, hj⟩ | ⟨h1, h2, h3, h4, h5⟩
      · exact absurd hcond.1 (by omega)
      · right
        omega
    · rw [flmInv_mk]
      exact hinv

theorem extendUpper_inv {a b : List Char} {alo ahi blo bhi : Nat} :
    ∀ (fuel besti bestj bestsize : Nat),
      FlmInv alo ahi blo bhi (besti, bestj, bestsize) →
      FlmInv alo ahi blo bhi
        (extendUpper a b ahi bhi fuel (besti, bestj, bestsize)) := by
  intro fuel
  induction fuel with
  | zero => intro besti bestj bestsize hinv; exact hinv
  | succ fuel ih =>
    intro besti bestj bestsize hinv
    rw [flmInv_mk] at hinv
    rw [extendUpper]
    split
    · rename_i hcond
      apply ih
      rw [flmInv_mk]
      rcases hinv with ⟨h0, hi, hj⟩ | ⟨h1, h2, h3, h4, h5⟩
      · right
        omega
      · right
        omega
    · rw [flmInv_mk]
      exact hinv

/-- The result of `find_longest_match` is either the trivial zero block at
`(alo, blo)` or a genuine block inside the requested ranges. -/
theorem find_longest_match_inv (a b : List Char) (m : List (Char × List Nat))
    (alo ahi blo bhi : Nat) :
    FlmInv alo ahi blo bhi (find_longest_match a b m alo ahi blo bhi) := by
  unfold find_longest_match
  have h0 : FlmInv alo ahi blo bhi
      (outerLoop a m blo bhi alo (ahi - alo) (fun _ => 0) (alo, blo, 0)) := by
    apply outerLoop_inv
    · omega
    · omega
    · intro j; exact ⟨by show 0 + alo ≤ alo; omega, Or.inl rfl⟩
    · left; exact ⟨rfl, rfl, rfl⟩
  set t := outerLoop a m blo bhi alo (ahi - alo) (fun _ => 0) (alo, blo, 0)
    with ht
  obtain ⟨i, j, k⟩ := t
  have h1 := extendLower_inv (a := a) (b := b) i i j k h0
  show FlmInv alo ahi blo bhi
    (extendUpper a b ahi bhi ahi (extendLower a b alo blo i (i, j, k)))
  set u := extendLower a b alo blo i (i, j, k) with hu
  obtain ⟨i2, j2, k2⟩ := u
  exact extendUpper_inv ahi i2 j2 k2 h1

/-- Total length of all matching blocks: the recursion of
`get_matching_blocks` (the queue order does not affect the sum, so the
two sub-ranges of each block are summed directly).  The structural fuel
argument is initialised to `(ahi - alo) + (bhi - blo)`, which bounds the
recursion depth because each emitted block strictly shrinks the sum of
the two range widths (`find_longest_match_inv`). -/
def matchTotal (a b : List Char) (m : List (Char × List Nat)) :
    Nat → Nat → Nat → Nat → Nat → Nat
  | 0, _, _, _, _ => 0
  | fuel + 1, alo, ahi, blo, bhi =>
    let t := find_longest_match a b m alo ahi blo bhi
    if t.2.2 = 0 then 0
    else
      t.2.2 +
        (if alo < t.1 ∧ blo < t.2.1 then
          matchTotal a b m fuel alo t.1 blo t.2.1
        else 0) +
        (if t.1 + t.2.2 < ahi ∧ t.2.1 + t.2.2 < bhi then
          matchTotal a b m fuel (t.1 + t.2.2) ahi (t.2.1 + t.2.2) bhi
        else 0)

/-- `similar(a, b) = SequenceMatcher(None, a, b).ratio()`:
`2*matches/(la+lb)` in exact rational arithmetic, `1.0` when both
strings are empty. -/
def similar (sa sb : String) : ℚ :=
  let a := sa.data
  let b := sb.data
  let ms := matchTotal a b (b2jOf b) (a.length + b.length) 0 a.length 0
    b.length
  if a.length + b.length = 0 then 1
  else (2 * ms : ℚ) / (a.length + b.length : ℚ)

/-! ## The Resolver (`find_missing_and_flag_duplicates`) -/

/-- The fuzzy scan: `best = 0.0; for cand in target_normnames: r =
similar(nn, cand); if r > best: best = r`. -/
def bestSim (nn : String) (cands : List String) : ℚ :=
  cands.foldl (fun best cand =>
    if best < similar nn cand then similar nn cand else best) 0

/-- `str(tid) if tid is not None else None`. -/
def tidString (p : PRec) : Option String :=
  if (resolveTid p).isNull then none else some (pyStr (resolveTid p))

/-- The three-step `found` computation of
`find_missing_and_flag_duplicates`: id exact (guarded by truthiness of
`tid_s`), then exact normalized name, then the fuzzy scan against θ. -/
def foundB (targetIds targetNames : List String) (fuzzy : ℚ) (p : PRec) :
    Bool :=
  let f1 := match tidString p with
    | some s => s ≠ "" && targetIds.contains s
    | none => false
  let nn := normalizeV (orE (pget p "name") (.str ""))
  if f1 then true
  else if nn ≠ "" && targetNames.contains nn then true
  else if nn ≠ "" && decide (fuzzy ≤ bestSim nn targetNames) then true
  else false

/-- The base entry built for every source record. -/
def entryBase (p : PRec) : PRec :=
  [("name", pget p "name"),
   ("name_ar", pget p "name_ar"),
   ("transfermarkt_url", orE (pget p "transfermarkt_url")
      (pget p "transfermarktUrl")),
   ("wikipedia_url_provided", orE (pget p "wikipedia_url_provided")
      (orE (pget p "wikipedia_url") (pget p "wikipedia"))),
   ("transfermarkt_id", match tidString p with
      | some s => .str s
      | none => .null)]

/-- `{g["key"]: g for g in groups}.get(k)`: in a dict comprehension a
later group with the same key overwrites an earlier one, so the last
matching group wins. -/
def groupMapGet (groups : List IntraGroup) (k : String) : Option IntraGroup :=
  groups.reverse.find? (fun g => g.key = k)

/-- The `dup_info` list: for each record key, the source group (when the
key is a source duplicate key) then the target group (when it is a target
duplicate key). -/
def dupInfoList (keys : List String) (dupSrc dupTgt : List IntraGroup) :
    List (String × Option IntraGroup) :=
  keys.flatMap (fun k =>
    (if (dupSrc.map IntraGroup.key).contains k then [(k, groupMapGet dupSrc k)]
     else []) ++
    (if (dupTgt.map IntraGroup.key).contains k then [(k, groupMapGet dupTgt k)]
     else []))

/-- `sorted(set(dup_locations))`: the only possible elements are
`"source"` and `"target"`, in that sorted order. -/
def dupLocations (keys : List String) (dupSrc dupTgt : List IntraGroup) :
    List String :=
  (if keys.any (fun k => (dupSrc.map IntraGroup.key).contains k)
   then ["source"] else []) ++
  (if keys.any (fun k => (dupTgt.map IntraGroup.key).contains k)
   then ["target"] else [])

/-- One element of `members_preview`: name plus
`m.get("transfermarkt_id") or m.get("id")`. -/
def memberPreview (m : PRec) : Value :=
  .obj [("name", pget m "name"),
        ("transfermarkt_id", orE (pget m "transfermarkt_id") (pget m "id"))]

/-- The `duplicate_groups` summary value (`if g:` is always true for the
non-empty group dicts, so present groups are always included). -/
def dupGroupsValue (info : List (String × Option IntraGroup)) : Value :=
  .list (info.filterMap (fun kg =>
    match kg.2 with
    | none => none
    | some g => some (.obj
        [("key", .str kg.1),
         ("member_count", .int g.members.length),
         ("members_preview", .list ((g.members.take 5).map memberPreview))])))

/-- Classification of one source record: the emitted entry, or `none`
when the record is found and not duplicate-flagged (dropped). -/
def classifyEntry (ids names : List String) (fuzzy : ℚ)
    (dupSrc dupTgt : List IntraGroup) (p : PRec) : Option PRec :=
  let found := foundB ids names fuzzy p
  let keys := key_for_player p
  let locs := dupLocations keys dupSrc dupTgt
  let entry := entryBase p ++
    (if locs.isEmpty then []
     else [("duplicate", .bool true),
           ("duplicate_in", .list (locs.map .str)),
           ("duplicate_groups",
             dupGroupsValue (dupInfoList keys dupSrc dupTgt))])
  if !found then some (entry ++ [("missing", .bool true)])
  else if !locs.isEmpty then some (entry ++ [("missing", .bool false)])
  else none

/-- `find_missing_and_flag_duplicates(source, target_ids,
target_normnames, dup_src_groups, dup_tgt_groups, fuzzy_threshold)`. -/
def find_missing_and_flag_duplicates (source : List PRec)
    (targetIds targetNames : List String) (dupSrc dupTgt : List IntraGroup)
    (fuzzy : ℚ) : List PRec :=
  source.filterMap (classifyEntry targetIds targetNames fuzzy dupSrc dupTgt)

/-! ## The ReportWriter (`write_csv`) -/

/-- One hex digit. -/
def hexDigit (n : Nat) : Char :=
  if n < 10 then Char.ofNat (48 + n) else Char.ofNat (87 + n)

/-- JSON string escaping as performed by `json.dumps(·, ensure_ascii=False)`. -/
def jsonEscape (s : String) : String :=
  String.mk (s.data.flatMap (fun c =>
    if c = '"' then ['\\', '"']
    else if c = '\\' then ['\\', '\\']
    else if c = '\n' then ['\\', 'n']
    else if c = '\t' then ['\\', 't']
    else if c = '\r' then ['\\', 'r']
    else if c.toNat < 0x20 then
      ['\\', 'u', '0', '0', hexDigit (c.toNat / 16), hexDigit (c.toNat % 16)]
    else [c]))

mutual
/-- `json.dumps(v, ensure_ascii=False)` with the default separators. -/
def jsonDumps : Value → String
  | .null => "null"
  | .str s => "\"" ++ jsonEscape s ++ "\""
  | .int n => toString n
  | .bool b => if b then "true" else "false"
  | .list l => "[" ++ String.intercalate ", " (jsonDumpsList l) ++ "]"
  | .obj o => "\x7b" ++ String.intercalate ", " (jsonDumpsObj o) ++ "\x7d"

def jsonDumpsList : List Value → List String
  | [] => []
  | v :: vs => jsonDumps v :: jsonDumpsList vs

def jsonDumpsObj : List (String × Value) → List String
  | [] => []
  | (k, v) :: kvs =>
    ("\"" ++ jsonEscape k ++ "\": " ++ jsonDumps v) :: jsonDumpsObj kvs
end

/-- One CSV cell: `""` for `None`, `json.dumps` for lists and dicts, the
`str()` form the csv writer applies otherwise. -/
def csvCell : Value → String
  | .null => ""
  | .list l => jsonDumps (.list l)
  | .obj o => jsonDumps (.obj o)
  | .str s => s
  | .int n => toString n
  | .bool b => if b then "True" else "False"

/-- The header fields: the union of the rows' keys.  (The source builds
this union as a Python `set`, whose iteration order is unspecified; the
model fixes first-appearance order, which realises the same set.) -/
def csvHeader (data : List PRec) : List String :=
  data.foldl (fun ks row => row.foldl (fun ks kv => setAdd ks kv.1) ks) []

/-- `write_csv`: no output at all for an empty record list, otherwise a
header row followed by one row per record, each cell produced by
`csvCell` from `row.get(k)`. -/
def write_csv (data : List PRec) : Option (List (List String)) :=
  if data.isEmpty then none
  else
    let keys := csvHeader data
    some (keys :: data.map (fun row => keys.map (fun k => csvCell (pget row k))))

/-! ## The cross-dataset GroupBuilder (`find_cross_duplicates.py`) -/

/-- `canonical_keys(player)`: same key derivation as `key_for_player`
(the two files duplicate the function). -/
def canonical_keys (player : PRec) : List String :=
  let tid := resolveTid player
  let keys : List String := if tid.isNull then [] else ["tid::" ++ pyStr tid]
  let nn := normalizeV (orE (pget player "name") (.str ""))
  if nn ≠ "" then keys ++ ["name::" ++ nn] else keys

/-- `compact_player_view(p)`. -/
def compact_player_view (p : PRec) : Value :=
  .obj [("name", pget p "name"),
        ("name_ar", pget p "name_ar"),
        ("transfermarkt_id", orE (pget p "transfermarkt_id")
           (orE (pget p "id") .null)),
        ("transfermarkt_url", orE (pget p "transfermarkt_url")
           (pget p "transfermarktUrl")),
        ("wikipedia_url_provided", orE (pget p "wikipedia_url_provided")
           (orE (pget p "wikipedia_url") (pget p "wikipedia")))]

/-- An occurrence entry `{"file": tag, "index": idx, "player": p}`. -/
structure OccE where
  file : String
  index : Nat
  player : PRec

/-- The `combined` list: source occurrences tagged `"source"`, then
target occurrences tagged `"target"`, each with its positional index. -/
def combinedOf (src tgt : List PRec) : List (String × Nat × PRec) :=
  src.enum.map (fun ip => ("source", ip.1, ip.2)) ++
    tgt.enum.map (fun ip => ("target", ip.1, ip.2))

/-- Register one occurrence under each of its keys, or under the
`raw::file::idx` fallback key when it has none. -/
def groupsMapStep (m : List (String × List OccE)) (t : String × Nat × PRec) :
    List (String × List OccE) :=
  let keys := canonical_keys t.2.2
  if keys.isEmpty then
    bucketAdd m ("raw::" ++ t.1 ++ "::" ++ natStr t.2.1) ⟨t.1, t.2.1, t.2.2⟩
  else
    keys.foldl (fun m k => bucketAdd m k ⟨t.1, t.2.1, t.2.2⟩) m

/-- The `groups_map` dict of `find_common_groups`. -/
def buildGroupsMap (src tgt : List PRec) : List (String × List OccE) :=
  (combinedOf src tgt).foldl groupsMapStep []

/-- `(x.1, x.2) <= (y.1, y.2)` for Python tuple comparison on
`(str, int)` pairs. -/
def pairLe (x y : String × Nat) : Bool :=
  x.1 < y.1 || (x.1 = y.1 && x.2 ≤ y.2)

def insertPair (x : String × Nat) : List (String × Nat) → List (String × Nat)
  | [] => [x]
  | y :: ys => if pairLe x y then x :: y :: ys else y :: insertPair x ys

/-- Insertion sort on `(file, index)` pairs; models Python's `sorted`
(the pairs of one bucket are distinct, so stability is immaterial). -/
def sortPairs : List (String × Nat) → List (String × Nat)
  | [] => []
  | x :: xs => insertPair x (sortPairs xs)

/-- `sig = tuple(sorted((o["file"], o["index"]) for o in occ))`. -/
def mkSig (occ : List OccE) : List (String × Nat) :=
  sortPairs (occ.map (fun o => (o.file, o.index)))

/-- One output group of `find_common_groups`. -/
structure CrossGroup where
  keys : List String
  total_count : Nat
  occurrences : List (String × Nat × Value)
  present_in : List String

/-- `sorted(list({o["file"] for o in occ}))`: the only tags ever present
are `"source"` and `"target"`, in that sorted order. -/
def presentIn (occ : List OccE) : List String :=
  (if (occ.map OccE.file).contains "source" then ["source"] else []) ++
    (if (occ.map OccE.file).contains "target" then ["target"] else [])

/-- A fresh group as first emitted for a signature. -/
def mkGroup (k : String) (occ : List OccE) : CrossGroup :=
  ⟨[k], occ.length,
    occ.map (fun o => (o.file, o.index, compact_player_view o.player)),
    presentIn occ⟩

/-- Append `k` to the key list of the group at position `idx`
(`seen_signatures[sig]["keys"].append(k)` mutates the group object held
in `final_groups`). -/
def appendKeyAt : List CrossGroup → Nat → String → List CrossGroup
  | [], _, _ => []
  | g :: gs, 0, k =>
    ⟨g.keys ++ [k], g.total_count, g.occurrences, g.present_in⟩ :: gs
  | g :: gs, n + 1, k => g :: appendKeyAt gs n k

/-- One step of the signature-deduplication loop of
`find_common_groups`: skip buckets with signatures of length ≤ 1, append
the key to the already-emitted group of an already-seen signature,
otherwise emit a fresh group and record its signature. -/
def dedupeStep (st : List (List (String × Nat) × Nat) × List CrossGroup)
    (bucket : String × List OccE) :
    List (List (String × Nat) × Nat) × List CrossGroup :=
  let sig := mkSig bucket.2
  if sig.length ≤ 1 then st
  else
    match st.1.lookup sig with
    | some idx => (st.1, appendKeyAt st.2 idx bucket.1)
    | none => (st.1 ++ [(sig, st.2.length)], st.2 ++ [mkGroup bucket.1 bucket.2])

/-- The signature-deduplication pass (`seen_signatures` /
`final_groups`). -/
def dedupeBySignature (gm : List (String × List OccE)) : List CrossGroup :=
  (gm.foldl dedupeStep ([], [])).2

/-- `find_common_groups(source_list, target_list)`. -/
def find_common_groups (src tgt : List PRec) : List CrossGroup :=
  dedupeBySignature (buildGroupsMap src tgt)

/-! ## Claim-side comparison definitions

Two definitions transcribed from the claim/spec wording (not from the
source), used only to compare the spec's stated rule with the code's
actual rule. -/

/-- The identifier-field alias list, in probe order. -/
def aliasList : List String :=
  ["transfermarkt_id", "transfermarktId", "transfermarkt id", "transfermarkt"]

/-- Modelled from the spec (claim C4 wording): the identifier is the
*first present non-null* value among the alias list; when no alias is
present (non-null), the generic `id` field is used only if its value is
an integer or a string composed entirely of digits.  The key sequence is
the identifier key followed by the name key, as in the code. -/
def keysClaimC4 (p : PRec) : List String :=
  let tid : Value :=
    match (aliasList.map (pget p)).find? (fun v => !v.isNull) with
    | some v => v
    | none =>
      match pget p "id" with
      | .int n => .int n
      | .str s => if pyIsDigit s then .str s else .null
      | _ => .null
  let keys : List String := if tid.isNull then [] else ["tid::" ++ pyStr tid]
  let nn := normalizeV (orE (pget p "name") (.str ""))
  if nn ≠ "" then keys ++ ["name::" ++ nn] else keys

/-- The identifier value as the code actually resolves it, phrased as the
amended claim states it: the first *truthy* alias value; when no alias
value is truthy, the final alias's value if it is non-null; otherwise the
digit-guarded `id` fallback. -/
def amendedTid (p : PRec) : Value :=
  match (aliasList.map (pget p)).find? Value.truthy with
  | some v => v
  | none =>
    if (pget p "transfermarkt").isNull then idFallback p
    else pget p "transfermarkt"

/-- The amended claim C4 key extractor, built from `amendedTid`. -/
def keysAmendedC4 (p : PRec) : List String :=
  let keys : List String :=
    if (amendedTid p).isNull then [] else ["tid::" ++ pyStr (amendedTid p)]
  let nn := normalizeV (orE (pget p "name") (.str ""))
  if nn ≠ "" then keys ++ ["name::" ++ nn] else keys

/-- Modelled from the spec (claim C3 wording): rule (a) is plain set
membership of the identifier string, with no truthiness guard. -/
def foundClaimC3 (targetIds targetNames : List String) (fuzzy : ℚ)
    (p : PRec) : Bool :=
  let f1 := match tidString p with
    | some s => targetIds.contains s
    | none => false
  let nn := normalizeV (orE (pget p "name") (.str ""))
  if f1 then true
  else if nn ≠ "" && targetNames.contains nn then true
  else if nn ≠ "" && decide (fuzzy ≤ bestSim nn targetNames) then true
  else false

/-! ## Claim C4: key extraction -/

theorem truthy_not_null {v : Value} (h : v.truthy) : v.isNull = false := by
  cases v <;> simp_all [Value.truthy, Value.isNull]

theorem resolveTid_eq_amended (p : PRec) : resolveTid p = amendedTid p := by
  unfold resolveTid amendedTid
  simp only [aliasList, List.map_cons, List.map_nil]
  by_cases h1 : (pget p "transfermarkt_id").truthy
  · rw [List.find?_cons_of_pos _ h1]
    simp [orE, h1, truthy_not_null h1]
  · rw [List.find?_cons_of_neg _ (by simpa using h1)]
    by_cases h2 : (pget p "transfermarktId").truthy
    · rw [List.find?_cons_of_pos _ h2]
      simp [orE, h1, h2, truthy_not_null h2]
    · rw [List.find?_cons_of_neg _ (by simpa using h2)]
      by_cases h3 : (pget p "transfermarkt id").truthy
      · rw [List.find?_cons_of_pos _ h3]
        simp [orE, h1, h2, h3, truthy_not_null h3]
      · rw [List.find?_cons_of_neg _ (by simpa using h3)]
        by_cases h4 : (pget p "transfermarkt").truthy
        · rw [List.find?_cons_of_pos _ h4]
          simp [orE, h1, h2, h3, h4, truthy_not_null h4]
        · rw [List.find?_cons_of_neg _ (by simpa using h4)]
          simp [orE, h1, h2, h3, h4]

/-- C4, counterexample: for the record `{"transfermarkt_id": 0}` the
spec's rule (first present non-null alias value) yields the identifier
key `tid::0`, but the code's `or`-chain skips the falsy value `0` and
yields no key at all. -/
theorem C4_counterexample :
    key_for_player [("transfermarkt_id", Value.int 0)] = [] ∧
    keysClaimC4 [("transfermarkt_id", Value.int 0)] = ["tid::0"] :=
  ⟨rfl, rfl⟩

/-- C4, amended: the key extractor returns 0–2 keys, identifier key
before name key, and the identifier is the first *truthy* alias value
(null, empty-string, zero and false values are skipped); when no alias
value is truthy the final alias's value is used if it is non-null, and
otherwise the generic `id` field is used only if its value is an integer
or a digit string. -/
theorem C4_amended_keys (p : PRec) :
    key_for_player p = keysAmendedC4 p ∧ (key_for_player p).length ≤ 2 := by
  constructor
  · unfold key_for_player keysAmendedC4
    rw [resolveTid_eq_amended]
  · unfold key_for_player
    by_cases h1 : (resolveTid p).isNull <;>
      by_cases h2 : normalizeV (orE (pget p "name") (.str "")) = "" <;>
        simp [h1, h2]

/-! ## Claim C7: the duplicate-id scenario -/

/-- The two-record source of the C7 scenario. -/
def c7src : List PRec :=
  [[("transfermarkt_id", Value.str "42"), ("name", Value.str "a")],
   [("transfermarkt_id", Value.str "42"), ("name", Value.str "b")]]

/-- C7, counterexample: the single duplicate group for the two records
with `transfermarkt_id` 42 has key `tid::42`, not `id::42` as the claim
states. -/
theorem C7_counterexample :
    (find_duplicates c7src).map (fun g => (g.key, g.indices)) =
      [("tid::42", [0, 1])] ∧ ("tid::42" : String) ≠ "id::42" :=
  ⟨rfl, by decide⟩

/-- C7, amended: the intra-dataset pass on the two-record source yields
exactly one duplicate group, of size 2 with key `tid::42`, and
(with an empty target) both source records are emitted in the report
flagged `duplicate_in = ["source"]`. -/
theorem C7_amended :
    (find_duplicates c7src).map (fun g => (g.key, g.indices)) =
      [("tid::42", [0, 1])] ∧
    (find_missing_and_flag_duplicates c7src [] [] (find_duplicates c7src) []
        (mkRat 9 10)).map (fun e => pget e "duplicate_in") =
      [.list [.str "source"], .list [.str "source"]] :=
  ⟨rfl, rfl⟩

/-! ## Claim C3: the found rule -/

/-- C3, counterexample: for source record `{"transfermarkt": ""}` and a
target whose identifier-key set contains `""`, the claim's rule (a) says
"found", but the code's truthiness guard `if tid_s and ...` skips the
empty identifier string and classifies the record as not found. -/
theorem C3_counterexample :
    foundB [""] [] (9/10) [("transfermarkt", Value.str "")] = false ∧
    foundClaimC3 [""] [] (9/10) [("transfermarkt", Value.str "")] = true :=
  ⟨rfl, rfl⟩

/-- C3, amended: a source record is classified found iff (a) its
identifier string is *non-empty* and in the target identifier set, or
(b) its normalized name is non-empty and in the target name set, or (c)
its normalized name is non-empty and the maximum similarity against all
target names reaches the threshold. -/
theorem C3_amended_found (ids names : List String) (fuzzy : ℚ) (p : PRec) :
    foundB ids names fuzzy p = true ↔
      (∃ s, tidString p = some s ∧ s ≠ "" ∧ s ∈ ids) ∨
      (normalizeV (orE (pget p "name") (.str "")) ≠ "" ∧
        normalizeV (orE (pget p "name") (.str "")) ∈ names) ∨
      (normalizeV (orE (pget p "name") (.str "")) ≠ "" ∧
        fuzzy ≤ bestSim (normalizeV (orE (pget p "name") (.str ""))) names) := by
  unfold foundB
  rcases hts : tidString p with _ | s
  · by_cases hnn : normalizeV (orE (pget p "name") (.str "")) = ""
    · simp [hnn]
    · by_cases hmem : normalizeV (orE (pget p "name") (.str "")) ∈ names
      · simp [hnn, hmem]
      · by_cases hfz : fuzzy ≤ bestSim (normalizeV (orE (pget p "name")
            (.str ""))) names
        · simp [hnn, hmem, hfz]
        · simp [hnn, hmem, hfz]
  · by_cases hse : s = ""
    · subst hse
      by_cases hnn : normalizeV (orE (pget p "name") (.str "")) = ""
      · simp [hnn]
      · by_cases hmem : normalizeV (orE (pget p "name") (.str "")) ∈ names
        · simp [hnn, hmem]
        · by_cases hfz : fuzzy ≤ bestSim (normalizeV (orE (pget p "name")
              (.str ""))) names
          · simp [hnn, hmem, hfz]
          · simp [hnn, hmem, hfz]
    · by_cases hid : s ∈ ids
      · simp [hse, hid]
      · by_cases hnn : normalizeV (orE (pget p "name") (.str "")) = ""
        · simp [hse, hid, hnn]
        · by_cases hmem : normalizeV (orE (pget p "name") (.str "")) ∈ names
          · simp [hse, hid, hnn, hmem]
          · by_cases hfz : fuzzy ≤ bestSim (normalizeV (orE (pget p "name")
                (.str ""))) names
            · simp [hse, hid, hnn, hmem, hfz]
            · simp [hse, hid, hnn, hmem, hfz]

/-! ## Claim C10: the CSV writer -/

theorem setAdd_mem {α : Type} [BEq α] [LawfulBEq α] (s : List α) (x y : α) :
    y ∈ setAdd s x ↔ y ∈ s ∨ y = x := by
  unfold setAdd
  by_cases h : s.contains x
  · rw [if_pos h]
    constructor
    · exact Or.inl
    · rintro (hy | rfl)
      · exact hy
      · simpa using h
  · rw [if_neg h]
    simp

theorem csvHeader_row_fold (k : String) :
    ∀ (row : PRec) (acc : List String),
      k ∈ row.foldl (fun ks kv => setAdd ks kv.1) acc ↔
        k ∈ acc ∨ ∃ v, (k, v) ∈ row := by
  intro row
  induction row with
  | nil => simp
  | cons kv rest ih =>
    intro acc
    simp only [List.foldl_cons]
    rw [ih]
    rw [setAdd_mem]
    constructor
    · rintro ((hy | rfl) | ⟨v, hv⟩)
      · exact Or.inl hy
      · exact Or.inr ⟨kv.2, by simp⟩
      · exact Or.inr ⟨v, by simp [hv]⟩
    · rintro (hy | ⟨v, hv⟩)
      · exact Or.inl (Or.inl hy)
      · rcases List.mem_cons.mp hv with h | h
        · exact Or.inl (Or.inr (by rw [← h]))
        · exact Or.inr ⟨v, h⟩

theorem csvHeader_mem (data : List PRec) (k : String) :
    k ∈ csvHeader data ↔ ∃ r ∈ data, ∃ v, (k, v) ∈ r := by
  unfold csvHeader
  suffices h : ∀ (l : List PRec) (acc : List String),
      k ∈ l.foldl (fun ks row => row.foldl (fun ks kv => setAdd ks kv.1) ks)
        acc ↔ k ∈ acc ∨ ∃ r ∈ l, ∃ v, (k, v) ∈ r by
    rw [h data []]
    simp
  intro l
  induction l with
  | nil => simp
  | cons row rest ih =>
    intro acc
    simp only [List.foldl_cons]
    rw [ih, csvHeader_row_fold]
    constructor
    · rintro ((hy | ⟨v, hv⟩) | ⟨r, hr, v, hv⟩)
      · exact Or.inl hy
      · exact Or.inr ⟨row, by simp, v, hv⟩
      · exact Or.inr ⟨r, by simp [hr], v, hv⟩
    · rintro (hy | ⟨r, hr, v, hv⟩)
      · exact Or.inl (Or.inl hy)
      · rcases List.mem_cons.mp hr with h | h
        · subst h
          exact Or.inl (Or.inr ⟨v, hv⟩)
        · exact Or.inr ⟨r, h, v, hv⟩

/-- C10: `write_csv` produces no output at all (not even a header row)
for an empty record list; for a non-empty list it writes a header that is
exactly the union of the rows' field names, followed by one row per
record whose cells serialize null/missing to the empty string, lists and
mappings to their JSON text, and other values to their Python string
form. -/
theorem C10_write_csv :
    write_csv [] = none ∧
    ∀ data : List PRec, data ≠ [] →
      write_csv data = some (csvHeader data ::
        data.map (fun row => (csvHeader data).map
          (fun k => csvCell (pget row k)))) ∧
      (∀ k, k ∈ csvHeader data ↔ ∃ r ∈ data, ∃ v, (k, v) ∈ r) ∧
      csvCell .null = "" ∧
      (∀ l, csvCell (.list l) = jsonDumps (.list l)) ∧
      (∀ o, csvCell (.obj o) = jsonDumps (.obj o)) ∧
      (∀ s, csvCell (.str s) = s) := by
  constructor
  · rfl
  · intro data hne
    refine ⟨?_, csvHeader_mem data, rfl, fun _ => rfl, fun _ => rfl,
      fun _ => rfl⟩
    unfold write_csv
    rw [if_neg (by simpa using hne)]

/-- Witness for C10 at a concrete one-row input. -/
theorem C10_witness :
    write_csv [[("a", Value.int 1)]] = some (csvHeader [[("a", Value.int 1)]] ::
      [[("a", Value.int 1)]].map (fun row => (csvHeader [[("a", Value.int 1)]]).map
        (fun k => csvCell (pget row k)))) ∧
      (∀ k, k ∈ csvHeader [[("a", Value.int 1)]] ↔
        ∃ r ∈ [[("a", Value.int 1)]], ∃ v, (k, v) ∈ r) ∧
      csvCell .null = "" ∧
      (∀ l, csvCell (.list l) = jsonDumps (.list l)) ∧
      (∀ o, csvCell (.obj o) = jsonDumps (.obj o)) ∧
      (∀ s, csvCell (.str s) = s) :=
  C10_write_csv.2 [[("a", Value.int 1)]] (by simp)

/-! ## Claim C1: the Resolver's three-way partition -/

/-- The Resolver's outcome for one source record, read off the branch
structure of `find_missing_and_flag_duplicates`: `0` = emitted with
`missing=true` (not found), `1` = emitted with `missing=false` (found and
duplicate-flagged), `2` = dropped (found and not duplicate-flagged).
Being a function, it assigns exactly one outcome to every record. -/
def classifyOutcome (ids names : List String) (fuzzy : ℚ)
    (dupSrc dupTgt : List IntraGroup) (p : PRec) : Nat :=
  if foundB ids names fuzzy p = false then 0
  else if (dupLocations (key_for_player p) dupSrc dupTgt).isEmpty then 2
  else 1

theorem pget_append_last (l : PRec) (k : String) (v : Value)
    (h : l.lookup k = none) : pget (l ++ [(k, v)]) k = v := by
  unfold pget
  rw [List.lookup_append, h]
  simp

theorem entry_lookup_missing (p : PRec) (tail : PRec)
    (htail : ∀ kv ∈ tail, kv.1 ≠ "missing") :
    ((entryBase p ++ tail).lookup "missing") = none := by
  rw [List.lookup_eq_none_iff]
  intro pair hpair
  rcases List.mem_append.mp hpair with h | h
  · simp only [entryBase, List.mem_cons, List.not_mem_nil, or_false] at h
    rcases h with h | h | h | h | h <;> (subst h; simp)
  · simpa using (htail pair h).symm

theorem dupTail_keys (p : PRec) (locs : List String)
    (info : List (String × Option IntraGroup)) :
    ∀ kv ∈ (if locs.isEmpty then ([] : PRec)
      else [("duplicate", Value.bool true),
            ("duplicate_in", Value.list (locs.map Value.str)),
            ("duplicate_groups", dupGroupsValue info)]), kv.1 ≠ "missing" := by
  intro kv hkv
  by_cases h : locs.isEmpty
  · rw [if_pos h] at hkv
    simp at hkv
  · rw [if_neg h] at hkv
    simp only [List.mem_cons, List.not_mem_nil, or_false] at hkv
    rcases hkv with h' | h' | h' <;> (subst h'; simp)

theorem filterMap_length_partition {α β : Type} (f : α → Option β)
    (g : α → Bool) (h : ∀ a, f a = none ↔ g a = true) :
    ∀ l : List α, (l.filterMap f).length + l.countP g = l.length := by
  intro l
  induction l with
  | nil => simp
  | cons a l ih =>
    rw [List.filterMap_cons, List.countP_cons]
    cases hfa : f a with
    | none =>
      have := (h a).mp hfa
      simp [this, ← ih]
      omega
    | some b =>
      have : g a = false := by
        by_cases hg : g a
        · exact absurd ((h a).mpr hg) (by simp [hfa])
        · simpa using hg
      simp [this, ← ih]
      omega

theorem classifyEntry_cases (ids names : List String) (fuzzy : ℚ)
    (dupSrc dupTgt : List IntraGroup) (p : PRec) :
    (classifyOutcome ids names fuzzy dupSrc dupTgt p = 0 ∧
      foundB ids names fuzzy p = false ∧
      ∃ e, classifyEntry ids names fuzzy dupSrc dupTgt p = some e ∧
        pget e "missing" = .bool true) ∨
    (classifyOutcome ids names fuzzy dupSrc dupTgt p = 1 ∧
      foundB ids names fuzzy p = true ∧
      dupLocations (key_for_player p) dupSrc dupTgt ≠ [] ∧
      ∃ e, classifyEntry ids names fuzzy dupSrc dupTgt p = some e ∧
        pget e "missing" = .bool false) ∨
    (classifyOutcome ids names fuzzy dupSrc dupTgt p = 2 ∧
      foundB ids names fuzzy p = true ∧
      dupLocations (key_for_player p) dupSrc dupTgt = [] ∧
      classifyEntry ids names fuzzy dupSrc dupTgt p = none) := by
  by_cases hf : foundB ids names fuzzy p = false
  · left
    refine ⟨by simp [classifyOutcome, hf], hf, ?_⟩
    unfold classifyEntry
    rw [hf]
    simp only [Bool.not_false, if_pos]
    refine ⟨_, rfl, ?_⟩
    exact pget_append_last _ _ _ (entry_lookup_missing p _ (dupTail_keys p _ _))
  · have hf' : foundB ids names fuzzy p = true := by
      simpa using hf
    by_cases hl : (dupLocations (key_for_player p) dupSrc dupTgt).isEmpty
    · right; right
      refine ⟨by simp [classifyOutcome, hf', hl], hf',
        by simpa using hl, ?_⟩
      unfold classifyEntry
      rw [hf']
      simp [hl]
    · right; left
      have hLf : (dupLocations (key_for_player p) dupSrc dupTgt).isEmpty
          = false := by simpa using hl
      refine ⟨by simp [classifyOutcome, hf', hLf], hf',
        by simpa using hl, ?_⟩
      refine ⟨(entryBase p ++
        (if (dupLocations (key_for_player p) dupSrc dupTgt).isEmpty then []
         else [("duplicate", Value.bool true),
               ("duplicate_in", Value.list
                 ((dupLocations (key_for_player p) dupSrc dupTgt).map
                   Value.str)),
               ("duplicate_groups", dupGroupsValue
                 (dupInfoList (key_for_player p) dupSrc dupTgt))])) ++
        [("missing", Value.bool false)], ?_, ?_⟩
      · simp [classifyEntry, hf', hLf]
      · exact pget_append_last _ _ _
          (entry_lookup_missing p _ (dupTail_keys p _ _))

/-- C1: the Resolver's classification partitions the source records: the
outcome function assigns every record exactly one of the three outcomes
(emitted `missing=true` when not found, emitted `missing=false` when
found and duplicate-flagged, dropped when found and not flagged); the
report is the in-order `filterMap` of the per-record classifier over the
source, so each emitted record appears exactly once; and the emitted and
dropped counts sum to the source size. -/
theorem C1_partition (source : List PRec) (ids names : List String)
    (fuzzy : ℚ) (dupSrc dupTgt : List IntraGroup) :
    (∀ p : PRec,
      (classifyOutcome ids names fuzzy dupSrc dupTgt p = 0 ∧
        foundB ids names fuzzy p = false ∧
        ∃ e, classifyEntry ids names fuzzy dupSrc dupTgt p = some e ∧
          pget e "missing" = .bool true) ∨
      (classifyOutcome ids names fuzzy dupSrc dupTgt p = 1 ∧
        foundB ids names fuzzy p = true ∧
        dupLocations (key_for_player p) dupSrc dupTgt ≠ [] ∧
        ∃ e, classifyEntry ids names fuzzy dupSrc dupTgt p = some e ∧
          pget e "missing" = .bool false) ∨
      (classifyOutcome ids names fuzzy dupSrc dupTgt p = 2 ∧
        foundB ids names fuzzy p = true ∧
        dupLocations (key_for_player p) dupSrc dupTgt = [] ∧
        classifyEntry ids names fuzzy dupSrc dupTgt p = none)) ∧
    find_missing_and_flag_duplicates source ids names dupSrc dupTgt fuzzy =
      source.filterMap (classifyEntry ids names fuzzy dupSrc dupTgt) ∧
    (find_missing_and_flag_duplicates source ids names dupSrc dupTgt
        fuzzy).length +
      source.countP (fun p => foundB ids names fuzzy p &&
        (dupLocations (key_for_player p) dupSrc dupTgt).isEmpty) =
      source.length := by
  refine ⟨fun p => classifyEntry_cases ids names fuzzy dupSrc dupTgt p, rfl,
    ?_⟩
  apply filterMap_length_partition
  intro p
  rcases classifyEntry_cases ids names fuzzy dupSrc dupTgt p with
    ⟨_, hf, e, he, _⟩ | ⟨_, hf, hl, e, he, _⟩ | ⟨_, hf, hl, he⟩
  · simp [he, hf]
  · simp [he, hf, hl]
  · simp [he, hf, hl]

/-! ## Claim C2: the signature-deduplication invariants -/

/-- The occurrence signature of an emitted group, recomputed from its
stored occurrences (the view keeps the (file, index) pair). -/
def sigOf (g : CrossGroup) : List (String × Nat) :=
  sortPairs (g.occurrences.map (fun o => (o.1, o.2.1)))

theorem insertPair_length (x : String × Nat) :
    ∀ l, (insertPair x l).length = l.length + 1 := by
  intro l
  induction l with
  | nil => rfl
  | cons y ys ih =>
    unfold insertPair
    by_cases h : pairLe x y
    · simp [h]
    · simp [h, ih]

theorem sortPairs_length : ∀ l, (sortPairs l).length = l.length := by
  intro l
  induction l with
  | nil => rfl
  | cons x xs ih => simp [sortPairs, insertPair_length, ih]

theorem mkSig_length (occ : List OccE) : (mkSig occ).length = occ.length := by
  unfold mkSig
  rw [sortPairs_length, List.length_map]

theorem sigOf_mkGroup (k : String) (occ : List OccE) :
    sigOf (mkGroup k occ) = mkSig occ := by
  unfold sigOf mkGroup mkSig
  rw [List.map_map]
  rfl

theorem sigOf_keys_irrel (keys : List String) (g : CrossGroup) :
    sigOf ⟨keys, g.total_count, g.occurrences, g.present_in⟩ = sigOf g := rfl

theorem appendKeyAt_length : ∀ (l : List CrossGroup) (i : Nat) (k : String),
    (appendKeyAt l i k).length = l.length := by
  intro l
  induction l with
  | nil => intro i k; rfl
  | cons g gs ih =>
    intro i k
    cases i with
    | zero => rfl
    | succ n => simp [appendKeyAt, ih]

theorem appendKeyAt_get_ne : ∀ (l : List CrossGroup) (i j : Nat) (k : String)
    (h : j < l.length) (hne : j ≠ i),
    (appendKeyAt l i k).get ⟨j, by rw [appendKeyAt_length]; exact h⟩ =
      l.get ⟨j, h⟩ := by
  intro l
  induction l with
  | nil => intro i j k h hne; simp at h
  | cons g gs ih =>
    intro i j k h hne
    cases i with
    | zero =>
      cases j with
      | zero => exact absurd rfl hne
      | succ j => simp [appendKeyAt]
    | succ i =>
      cases j with
      | zero => simp [appendKeyAt]
      | succ j =>
        simp only [appendKeyAt, List.get_cons_succ]
        exact ih i j k (by simpa using h) (by omega)

theorem appendKeyAt_get_eq : ∀ (l : List CrossGroup) (i : Nat) (k : String)
    (h : i < l.length),
    (appendKeyAt l i k).get ⟨i, by rw [appendKeyAt_length]; exact h⟩ =
      ⟨(l.get ⟨i, h⟩).keys ++ [k], (l.get ⟨i, h⟩).total_count,
        (l.get ⟨i, h⟩).occurrences, (l.get ⟨i, h⟩).present_in⟩ := by
  intro l
  induction l with
  | nil => intro i k h; simp at h
  | cons g gs ih =>
    intro i k h
    cases i with
    | zero => rfl
    | succ i =>
      simp only [appendKeyAt, List.get_cons_succ]
      exact ih i k (by simpa using h)

theorem appendKeyAt_mem : ∀ (l : List CrossGroup) (i : Nat) (k : String),
    ∀ g ∈ appendKeyAt l i k, g ∈ l ∨
      ∃ g' ∈ l, g = ⟨g'.keys ++ [k], g'.total_count, g'.occurrences,
        g'.present_in⟩ := by
  intro l
  induction l with
  | nil => intro i k g hg; simp [appendKeyAt] at hg
  | cons g0 gs ih =>
    intro i k g hg
    cases i with
    | zero =>
      rcases List.mem_cons.mp hg with h | h
      · exact Or.inr ⟨g0, by simp, h⟩
      · exact Or.inl (List.mem_cons_of_mem _ h)
    | succ i =>
      rcases List.mem_cons.mp hg with h | h
      · exact Or.inl (by simp [h])
      · rcases ih i k g h with h' | ⟨g', hg', he⟩
        · exact Or.inl (List.mem_cons_of_mem _ h')
        · exact Or.inr ⟨g', List.mem_cons_of_mem _ hg', he⟩

theorem mem_of_lookup_eq_some {α β : Type} [BEq α] [LawfulBEq α]
    {l : List (α × β)} {k : α} {v : β} (h : l.lookup k = some v) :
    (k, v) ∈ l := by
  obtain ⟨l₁, l₂, rfl, _⟩ := List.lookup_eq_some_iff.mp h
  simp

theorem not_mem_fst_of_lookup_eq_none {α β : Type} [BEq α] [LawfulBEq α]
    {l : List (α × β)} {k : α} (h : l.lookup k = none) :
    k ∉ l.map Prod.fst := by
  intro hmem
  rw [List.lookup_eq_none_iff] at h
  obtain ⟨p, hp, hfst⟩ := List.mem_map.mp hmem
  have := h p hp
  simp [← hfst] at this


theorem appendKeyAt_getElem?_ne :
    ∀ (l : List CrossGroup) (i j : Nat) (k : String), j ≠ i →
      (appendKeyAt l i k)[j]? = l[j]? := by
  intro l
  induction l with
  | nil => intro i j k hne; simp [appendKeyAt]
  | cons g gs ih =>
    intro i j k hne
    cases i with
    | zero =>
      cases j with
      | zero => exact absurd rfl hne
      | succ j => simp [appendKeyAt]
    | succ i =>
      cases j with
      | zero => simp [appendKeyAt]
      | succ j =>
        simp only [appendKeyAt, List.getElem?_cons_succ]
        exact ih i j k (by omega)

theorem appendKeyAt_getElem?_eq :
    ∀ (l : List CrossGroup) (i : Nat) (k : String),
      (appendKeyAt l i k)[i]? = (l[i]?).map
        (fun g => ⟨g.keys ++ [k], g.total_count, g.occurrences,
          g.present_in⟩) := by
  intro l
  induction l with
  | nil => intro i k; simp [appendKeyAt]
  | cons g gs ih =>
    intro i k
    cases i with
    | zero => simp [appendKeyAt]
    | succ i =>
      simp only [appendKeyAt, List.getElem?_cons_succ]
      exact ih i k

theorem mem_of_getElem?_eq_some {α : Type} {l : List α} {i : Nat} {a : α}
    (h : l[i]? = some a) : a ∈ l := by
  obtain ⟨hi, rfl⟩ := List.getElem?_eq_some.mp h
  exact List.getElem_mem _

/-- The view projection applied to a bucket's occurrences. -/
def viewMap (occ : List OccE) : List (String × Nat × Value) :=
  occ.map (fun o => (o.file, o.index, compact_player_view o.player))

/-- The invariant of the `seen_signatures`/`final_groups` fold:
the recorded indices are `0, 1, …` in order; the recorded signatures are
pairwise distinct; every recorded signature is the signature of its
group; every emitted group is the view of some processed bucket of size
≥ 2; and every processed bucket of size ≥ 2 has its key in the key list
of the (unique) group carrying its signature. -/
def DedupeInv (processed : List (String × List OccE))
    (st : List (List (String × Nat) × Nat) × List CrossGroup) : Prop :=
  st.1.map Prod.snd = List.range st.2.length ∧
  (st.1.map Prod.fst).Nodup ∧
  (∀ si ∈ st.1, ∃ g, st.2[si.2]? = some g ∧ sigOf g = si.1) ∧
  (∀ g ∈ st.2, ∃ b ∈ processed, 2 ≤ b.2.length ∧
    g.occurrences = viewMap b.2 ∧ g.total_count = b.2.length ∧
    g.present_in = presentIn b.2) ∧
  (∀ b ∈ processed, 2 ≤ b.2.length →
    ∃ si ∈ st.1, si.1 = mkSig b.2 ∧ ∃ g, st.2[si.2]? = some g ∧
      b.1 ∈ g.keys)

theorem dedupeStep_inv (processed : List (String × List OccE))
    (st : List (List (String × Nat) × Nat) × List CrossGroup)
    (bucket : String × List OccE) (hinv : DedupeInv processed st) :
    DedupeInv (processed ++ [bucket]) (dedupeStep st bucket) := by
  obtain ⟨h1, h2, h3, h4, h5⟩ := hinv
  unfold dedupeStep
  by_cases hsmall : (mkSig bucket.2).length ≤ 1
  · rw [if_pos hsmall]
    refine ⟨h1, h2, h3, ?_, ?_⟩
    · intro g hg
      obtain ⟨b, hb, hlen, hocc, htc, hpi⟩ := h4 g hg
      exact ⟨b, List.mem_append_left _ hb, hlen, hocc, htc, hpi⟩
    · intro b hb hblen
      rcases List.mem_append.mp hb with h | h
      · exact h5 b h hblen
      · simp at h
        subst h
        rw [mkSig_length] at hsmall
        omega
  · rw [if_neg hsmall]
    cases hlk : st.1.lookup (mkSig bucket.2) with
    | some idx =>
      show DedupeInv (processed ++ [bucket])
        (st.1, appendKeyAt st.2 idx bucket.1)
      have hmem := mem_of_lookup_eq_some hlk
      have hidx : idx < st.2.length := by
        have : idx ∈ st.1.map Prod.snd := List.mem_map.mpr ⟨_, hmem, rfl⟩
        rw [h1] at this
        simpa using this
      refine ⟨?_, h2, ?_, ?_, ?_⟩
      · simpa [appendKeyAt_length] using h1
      · intro si hsi
        obtain ⟨g, hgs, hs⟩ := h3 si hsi
        by_cases hne : si.2 = idx
        · refine ⟨⟨g.keys ++ [bucket.1], g.total_count, g.occurrences,
            g.present_in⟩, ?_, ?_⟩
          · rw [hne, appendKeyAt_getElem?_eq]
            rw [← hne, hgs]
            rfl
          · rw [← hs]
            rfl
        · exact ⟨g, by rw [appendKeyAt_getElem?_ne _ _ _ _ hne]; exact hgs,
            hs⟩
      · intro g hg
        rcases appendKeyAt_mem st.2 idx bucket.1 g hg with h | ⟨g', hg', he⟩
        · obtain ⟨b, hb, hlen, hocc, htc, hpi⟩ := h4 g h
          exact ⟨b, List.mem_append_left _ hb, hlen, hocc, htc, hpi⟩
        · obtain ⟨b, hb, hlen, hocc, htc, hpi⟩ := h4 g' hg'
          exact ⟨b, List.mem_append_left _ hb, hlen, by simp [he, hocc],
            by simp [he, htc], by simp [he, hpi]⟩
      · intro b hb hblen
        rcases List.mem_append.mp hb with h | h
        · obtain ⟨si, hsi, hsig, g, hgs, hkey⟩ := h5 b h hblen
          by_cases hne : si.2 = idx
          · refine ⟨si, hsi, hsig, ⟨g.keys ++ [bucket.1], g.total_count,
              g.occurrences, g.present_in⟩, ?_, ?_⟩
            · rw [hne, appendKeyAt_getElem?_eq, ← hne, hgs]
              rfl
            · exact List.mem_append_left _ hkey
          · exact ⟨si, hsi, hsig, g,
              by rw [appendKeyAt_getElem?_ne _ _ _ _ hne]; exact hgs, hkey⟩
        · simp at h
          subst h
          obtain ⟨g, hgs, hs⟩ := h3 (mkSig b.2, idx) hmem
          refine ⟨(mkSig b.2, idx), hmem, rfl,
            ⟨g.keys ++ [b.1], g.total_count, g.occurrences, g.present_in⟩,
            ?_, by simp⟩
          show (appendKeyAt st.2 idx b.1)[idx]? = _
          rw [appendKeyAt_getElem?_eq]
          have : st.2[idx]? = some g := hgs
          rw [this]
          rfl
    | none =>
      show DedupeInv (processed ++ [bucket])
        (st.1 ++ [(mkSig bucket.2, st.2.length)],
          st.2 ++ [mkGroup bucket.1 bucket.2])
      refine ⟨?_, ?_, ?_, ?_, ?_⟩
      · simp [h1, List.range_succ]
      · simp only [List.map_append, List.map_cons, List.map_nil]
        rw [List.nodup_append]
        refine ⟨h2, by simp, ?_⟩
        intro x hx
        simp only [List.mem_singleton]
        intro hxe
        subst hxe
        exact not_mem_fst_of_lookup_eq_none hlk hx
      · intro si hsi
        rcases List.mem_append.mp hsi with h | h
        · obtain ⟨g, hgs, hs⟩ := h3 si h
          refine ⟨g, ?_, hs⟩
          rw [List.getElem?_append_left]
          · exact hgs
          · exact (List.getElem?_eq_some.mp hgs).1
        · simp only [List.mem_singleton] at h
          subst h
          refine ⟨mkGroup bucket.1 bucket.2, ?_, sigOf_mkGroup _ _⟩
          show (st.2 ++ [mkGroup bucket.1 bucket.2])[st.2.length]? = _
          rw [List.getElem?_append_right (by omega)]
          simp
      · intro g hg
        rcases List.mem_append.mp hg with h | h
        · obtain ⟨b, hb, hblen, hocc, htc, hpi⟩ := h4 g h
          exact ⟨b, List.mem_append_left _ hb, hblen, hocc, htc, hpi⟩
        · simp only [List.mem_singleton] at h
          subst h
          refine ⟨bucket, List.mem_append_right _ (by simp), ?_, rfl, rfl,
            rfl⟩
          rw [mkSig_length] at hsmall
          omega
      · intro b hb hblen
        rcases List.mem_append.mp hb with h | h
        · obtain ⟨si, hsi, hsig, g, hgs, hkey⟩ := h5 b h hblen
          refine ⟨si, List.mem_append_left _ hsi, hsig, g, ?_, hkey⟩
          rw [List.getElem?_append_left]
          · exact hgs
          · exact (List.getElem?_eq_some.mp hgs).1
        · simp only [List.mem_singleton] at h
          subst h
          refine ⟨(mkSig b.2, st.2.length),
            List.mem_append_right _ (by simp), rfl,
            mkGroup b.1 b.2, ?_, by simp [mkGroup]⟩
          show (st.2 ++ [mkGroup b.1 b.2])[st.2.length]? = _
          rw [List.getElem?_append_right (by omega)]
          simp

theorem dedupe_fold_inv :
    ∀ (gm : List (String × List OccE)) (processed : List (String × List OccE))
      (st : List (List (String × Nat) × Nat) × List CrossGroup),
      DedupeInv processed st →
      DedupeInv (processed ++ gm) (gm.foldl dedupeStep st) := by
  intro gm
  induction gm with
  | nil => intro processed st h; simpa using h
  | cons b gm ih =>
    intro processed st h
    have h2 := ih (processed ++ [b]) (dedupeStep st b) (dedupeStep_inv _ _ _ h)
    simpa [List.append_assoc] using h2

theorem dedupe_inv (gm : List (String × List OccE)) :
    DedupeInv gm (gm.foldl dedupeStep ([], [])) := by
  have h0 : DedupeInv [] (([], []) :
      List (List (String × Nat) × Nat) × List CrossGroup) := by
    refine ⟨by simp, by simp, ?_, ?_, ?_⟩ <;> simp
  simpa using dedupe_fold_inv gm [] ([], []) h0

theorem seen_snd_getElem
    (st : List (List (String × Nat) × Nat) × List CrossGroup)
    (h1 : st.1.map Prod.snd = List.range st.2.length) (i : Nat)
    (hi : i < st.1.length) : (st.1[i]).2 = i := by
  have hi' : i < (st.1.map Prod.snd).length := by simpa using hi
  have e := List.getElem_of_eq h1 hi'
  rw [List.getElem_map] at e
  rw [e, List.getElem_range]

theorem dedupe_sig_pointwise (gm : List (String × List OccE)) (i : Nat)
    (hi2 : i < (gm.foldl dedupeStep ([], [])).2.length)
    (hi1 : i < (gm.foldl dedupeStep ([], [])).1.length) :
    sigOf ((gm.foldl dedupeStep ([], [])).2[i]) =
      ((gm.foldl dedupeStep ([], [])).1[i]).1 := by
  obtain ⟨h1, h2, h3, h4, h5⟩ := dedupe_inv gm
  obtain ⟨g, hgs, hs⟩ := h3 ((gm.foldl dedupeStep ([], [])).1[i])
    (List.getElem_mem _)
  rw [seen_snd_getElem _ h1 i hi1] at hgs
  have : g = (gm.foldl dedupeStep ([], [])).2[i] := by
    have := List.getElem?_eq_some.mp hgs
    obtain ⟨_, he⟩ := this
    exact he.symm
  rw [← this, hs]

/-- C2: over any clustered occurrence map, the signature-deduplication
pass never emits two groups with equal occurrence signatures, every
emitted group has at least two occurrences (and `total_count` is that
occurrence count), and each key whose bucket has at least two
occurrences ends up in the key list of a group carrying exactly that
bucket's signature — appended to the already-emitted group rather than
emitted as a new group. -/
theorem C2_dedupe (gm : List (String × List OccE)) :
    ((dedupeBySignature gm).map sigOf).Nodup ∧
    (∀ g ∈ dedupeBySignature gm, 2 ≤ g.total_count ∧
      g.occurrences.length = g.total_count) ∧
    (∀ b ∈ gm, 2 ≤ b.2.length →
      ∃ g ∈ dedupeBySignature gm, b.1 ∈ g.keys ∧ sigOf g = mkSig b.2) := by
  obtain ⟨h1, h2, h3, h4, h5⟩ := dedupe_inv gm
  have hlen : (gm.foldl dedupeStep ([], [])).1.length =
      (gm.foldl dedupeStep ([], [])).2.length := by
    have := congrArg List.length h1
    simpa using this
  refine ⟨?_, ?_, ?_⟩
  · have hmapeq : (dedupeBySignature gm).map sigOf =
        (gm.foldl dedupeStep ([], [])).1.map Prod.fst := by
      apply List.ext_getElem
      · simpa [dedupeBySignature] using hlen.symm
      · intro i hi1 hi2
        simp only [List.getElem_map]
        exact dedupe_sig_pointwise gm i (by simpa [dedupeBySignature]
          using hi1) (by simpa using hi2)
    rw [hmapeq]
    exact h2
  · intro g hg
    obtain ⟨b, _, hblen, hocc, htc, _⟩ := h4 g
      (by simpa [dedupeBySignature] using hg)
    refine ⟨by omega, ?_⟩
    rw [hocc, htc]
    simp [viewMap]
  · intro b hb hblen
    obtain ⟨si, hsi, hsig, g, hgs, hkey⟩ := h5 b hb hblen
    refine ⟨g, ?_, hkey, ?_⟩
    · exact mem_of_getElem?_eq_some hgs
    · obtain ⟨glt, he⟩ := List.getElem?_eq_some.mp hgs
      rw [← hsig, ← he]
      obtain ⟨j, hj, hje⟩ := List.getElem_of_mem hsi
      have hsj : si.2 = j := by
        rw [← hje]
        exact seen_snd_getElem _ h1 j hj
      have hpt := dedupe_sig_pointwise gm si.2 glt (by omega)
      rw [hpt]
      have hq : (gm.foldl dedupeStep ([], [])).1[si.2]? = some si := by
        rw [hsj]
        exact List.getElem?_eq_some.mpr ⟨hj, hje⟩
      obtain ⟨p2, he2⟩ := List.getElem?_eq_some.mp hq
      exact congrArg Prod.fst he2

/-- Witness for C2 at a concrete two-key occurrence map in which both
keys carry the same two occurrences. -/
theorem C2_witness :
    2 ≤ ([OccE.mk "source" 0 [], OccE.mk "source" 1 []] : List OccE).length ∧
    ∃ g ∈ dedupeBySignature
      [("tid::1", [OccE.mk "source" 0 [], OccE.mk "source" 1 []]),
       ("name::x", [OccE.mk "source" 0 [], OccE.mk "source" 1 []])],
      "name::x" ∈ g.keys ∧
      sigOf g = mkSig [OccE.mk "source" 0 [], OccE.mk "source" 1 []] :=
  ⟨by simp, (C2_dedupe _).2.2 _
    (List.mem_cons_of_mem _ (List.mem_cons_self _ _)) (by simp)⟩

/-! ## Claim C9: empty target -/

theorem bucketAdd_occ {κ α : Type} [DecidableEq κ] :
    ∀ (m : List (κ × List α)) (k : κ) (v : α), ∀ b ∈ bucketAdd m k v,
      ∀ x ∈ b.2, (∃ b' ∈ m, x ∈ b'.2) ∨ x = v := by
  intro m
  induction m with
  | nil =>
    intro k v b hb x hx
    simp only [bucketAdd, List.mem_singleton] at hb
    subst hb
    simp only [List.mem_singleton] at hx
    exact Or.inr hx
  | cons e rest ih =>
    intro k v b hb x hx
    obtain ⟨k', l⟩ := e
    by_cases hk : k' = k
    · simp only [bucketAdd, if_pos hk] at hb
      rcases List.mem_cons.mp hb with h | h
      · subst h
        rcases List.mem_append.mp hx with h' | h'
        · exact Or.inl ⟨(k', l), by simp, h'⟩
        · simp only [List.mem_singleton] at h'
          exact Or.inr h'
      · exact Or.inl ⟨b, List.mem_cons_of_mem _ h, hx⟩
    · simp only [bucketAdd, if_neg hk] at hb
      rcases List.mem_cons.mp hb with h | h
      · subst h
        exact Or.inl ⟨(k', l), by simp, hx⟩
      · rcases ih k v b h x hx with ⟨b', hb', hx'⟩ | h'
        · exact Or.inl ⟨b', List.mem_cons_of_mem _ hb', hx'⟩
        · exact Or.inr h'

theorem keysFold_occ :
    ∀ (keys : List String) (v : OccE) (m : List (String × List OccE)),
      ∀ b ∈ keys.foldl (fun m k => bucketAdd m k v) m, ∀ x ∈ b.2,
        (∃ b' ∈ m, x ∈ b'.2) ∨ x = v := by
  intro keys
  induction keys with
  | nil => intro v m b hb x hx; exact Or.inl ⟨b, hb, hx⟩
  | cons k keys ih =>
    intro v m b hb x hx
    rcases ih v (bucketAdd m k v) b hb x hx with ⟨b', hb', hx'⟩ | h
    · exact bucketAdd_occ m k v b' hb' x hx'
    · exact Or.inr h

theorem groupsMapStep_occ (m : List (String × List OccE))
    (t : String × Nat × PRec) :
    ∀ b ∈ groupsMapStep m t, ∀ x ∈ b.2,
      (∃ b' ∈ m, x ∈ b'.2) ∨ x = ⟨t.1, t.2.1, t.2.2⟩ := by
  intro b hb x hx
  unfold groupsMapStep at hb
  by_cases hk : (canonical_keys t.2.2).isEmpty
  · rw [if_pos hk] at hb
    exact bucketAdd_occ m _ _ b hb x hx
  · rw [if_neg hk] at hb
    exact keysFold_occ _ _ m b hb x hx

theorem buildGroupsMap_occ :
    ∀ (l : List (String × Nat × PRec)) (m : List (String × List OccE)),
      ∀ b ∈ l.foldl groupsMapStep m, ∀ x ∈ b.2,
        (∃ b' ∈ m, x ∈ b'.2) ∨ ∃ t ∈ l, x = OccE.mk t.1 t.2.1 t.2.2 := by
  intro l
  induction l with
  | nil => intro m b hb x hx; exact Or.inl ⟨b, hb, hx⟩
  | cons t l ih =>
    intro m b hb x hx
    rcases ih (groupsMapStep m t) b hb x hx with ⟨b', hb', hx'⟩ | ⟨t', ht', he⟩
    · rcases groupsMapStep_occ m t b' hb' x hx' with h | h
      · exact Or.inl h
      · exact Or.inr ⟨t, by simp, h⟩
    · exact Or.inr ⟨t', List.mem_cons_of_mem _ ht', he⟩

theorem foundB_empty_sets (θ : ℚ) (hθ : 0 < θ) (p : PRec) :
    foundB [] [] θ p = false := by
  unfold foundB
  have hdec : ∀ nn : String, decide (θ ≤ bestSim nn []) = false := by
    intro nn
    apply decide_eq_false
    show ¬θ ≤ 0
    exact not_le.mpr hθ
  cases tidString p <;> simp [hdec]

/-- C9: with an empty target dataset every source record is classified
`missing=true` (the found computation fails for every record since all
three rules consult empty sets and the fuzzy best score is 0 < θ), the
report has one entry per source record, and no cross-dataset group
contains a target-tagged occurrence — every stored occurrence is tagged
`"source"`. -/
theorem C9_empty_target (src : List PRec) (dupS dupT : List IntraGroup)
    (θ : ℚ) (hθ : 0 < θ) :
    (∀ p : PRec, foundB (build_target_lookup []).1 (build_target_lookup []).2
      θ p = false) ∧
    (find_missing_and_flag_duplicates src (build_target_lookup []).1
      (build_target_lookup []).2 dupS dupT θ).length = src.length ∧
    (∀ e ∈ find_missing_and_flag_duplicates src (build_target_lookup []).1
      (build_target_lookup []).2 dupS dupT θ,
      pget e "missing" = .bool true) ∧
    (∀ g ∈ find_common_groups src [], ∀ o ∈ g.occurrences,
      o.1 = "source") := by
  have hfb : ∀ p : PRec, foundB (build_target_lookup []).1
      (build_target_lookup []).2 θ p = false :=
    fun p => foundB_empty_sets θ hθ p
  refine ⟨hfb, ?_, ?_, ?_⟩
  · have h := filterMap_length_partition
      (classifyEntry (build_target_lookup []).1 (build_target_lookup []).2 θ
        dupS dupT)
      (fun p => foundB (build_target_lookup []).1 (build_target_lookup []).2
        θ p && (dupLocations (key_for_player p) dupS dupT).isEmpty)
      (fun p => by
        rcases classifyEntry_cases (build_target_lookup []).1
            (build_target_lookup []).2 θ dupS dupT p with
          ⟨_, hf, e, he, _⟩ | ⟨_, hf, hl, e, he, _⟩ | ⟨_, hf, hl, he⟩
        · simp [he, hf]
        · simp [he, hf, hl]
        · simp [he, hf, hl]) src
    have hz : src.countP (fun p => foundB (build_target_lookup []).1
        (build_target_lookup []).2 θ p &&
        (dupLocations (key_for_player p) dupS dupT).isEmpty) = 0 := by
      apply List.countP_eq_zero.mpr
      intro p _
      simp [hfb p]
    rw [hz] at h
    simpa [find_missing_and_flag_duplicates] using h
  · intro e he
    obtain ⟨p, hp, hpe⟩ := List.mem_filterMap.mp he
    rcases classifyEntry_cases (build_target_lookup []).1
        (build_target_lookup []).2 θ dupS dupT p with
      ⟨_, hf, e', he', hm⟩ | ⟨_, hf, _, _, _, _⟩ | ⟨_, hf, _, _⟩
    · rw [hpe] at he'
      obtain rfl := Option.some.injEq .. ▸ he'
      simpa using hm
    · rw [hfb p] at hf
      exact absurd hf (by simp)
    · rw [hfb p] at hf
      exact absurd hf (by simp)
  · intro g hg o ho
    obtain ⟨_, _, _, h4, _⟩ := dedupe_inv (buildGroupsMap src [])
    obtain ⟨b, hb, _, hocc, _, _⟩ := h4 g
      (by simpa [find_common_groups, dedupeBySignature] using hg)
    rw [hocc] at ho
    obtain ⟨oc, hoc, hoco⟩ := List.mem_map.mp ho
    rcases buildGroupsMap_occ (combinedOf src []) [] b
        (by simpa [buildGroupsMap] using hb) oc hoc with ⟨b', hb', _⟩ | ⟨t, ht, hte⟩
    · simp at hb'
    · have : t.1 = "source" := by
        unfold combinedOf at ht
        rcases List.mem_append.mp ht with h | h
        · obtain ⟨ip, _, hip⟩ := List.mem_map.mp h
          rw [← hip]
        · simp at h
      rw [← hoco, hte]
      exact this

/-! ## Claim C8: keyless records never merge -/

theorem tid_ne_raw (s t : String) : ("tid::" ++ s) ≠ ("raw::" ++ t) := by
  intro h
  have h2 := congrArg String.data h
  rw [String.data_append, String.data_append] at h2
  have h3 : 't' :: 'i' :: 'd' :: ':' :: ':' :: s.data =
      'r' :: 'a' :: 'w' :: ':' :: ':' :: t.data := h2
  simp at h3

theorem name_ne_raw (s t : String) : ("name::" ++ s) ≠ ("raw::" ++ t) := by
  intro h
  have h2 := congrArg String.data h
  rw [String.data_append, String.data_append] at h2
  have h3 : 'n' :: 'a' :: 'm' :: 'e' :: ':' :: ':' :: s.data =
      'r' :: 'a' :: 'w' :: ':' :: ':' :: t.data := h2
  simp at h3

theorem tid_ne_index (s t : String) : ("tid::" ++ s) ≠ ("index::" ++ t) := by
  intro h
  have h2 := congrArg String.data h
  rw [String.data_append, String.data_append] at h2
  have h3 : 't' :: 'i' :: 'd' :: ':' :: ':' :: s.data =
      'i' :: 'n' :: 'd' :: 'e' :: 'x' :: ':' :: ':' :: t.data := h2
  simp at h3

theorem name_ne_index (s t : String) :
    ("name::" ++ s) ≠ ("index::" ++ t) := by
  intro h
  have h2 := congrArg String.data h
  rw [String.data_append, String.data_append] at h2
  have h3 : 'n' :: 'a' :: 'm' :: 'e' :: ':' :: ':' :: s.data =
      'i' :: 'n' :: 'd' :: 'e' :: 'x' :: ':' :: ':' :: t.data := h2
  simp at h3

theorem tid_ne_name (s t : String) : ("tid::" ++ s) ≠ ("name::" ++ t) := by
  intro h
  have h2 := congrArg String.data h
  rw [String.data_append, String.data_append] at h2
  have h3 : 't' :: 'i' :: 'd' :: ':' :: ':' :: s.data =
      'n' :: 'a' :: 'm' :: 'e' :: ':' :: ':' :: t.data := h2
  simp at h3

theorem index_key_inj {i j : Nat}
    (h : ("index::" ++ natStr i) = ("index::" ++ natStr j)) : i = j := by
  have h2 := congrArg String.data h
  rw [String.data_append, String.data_append] at h2
  have h3 : (natStr i).data = (natStr j).data := List.append_cancel_left h2
  exact natStrData_inj i j i j le_rfl le_rfl h3

theorem raw_key_inj {f f' : String} {i j : Nat}
    (hf : f = "source" ∨ f = "target") (hf' : f' = "source" ∨ f' = "target")
    (h : ("raw::" ++ f ++ "::" ++ natStr i) =
      ("raw::" ++ f' ++ "::" ++ natStr j)) : f = f' ∧ i = j := by
  have h2 := congrArg String.data h
  simp only [String.data_append] at h2
  rcases hf with rfl | rfl <;> rcases hf' with rfl | rfl
  · refine ⟨rfl, ?_⟩
    have h3 : 'r' :: 'a' :: 'w' :: ':' :: ':' :: 's' :: 'o' :: 'u' :: 'r' ::
        'c' :: 'e' :: ':' :: ':' :: (natStr i).data =
        'r' :: 'a' :: 'w' :: ':' :: ':' :: 's' :: 'o' :: 'u' :: 'r' ::
        'c' :: 'e' :: ':' :: ':' :: (natStr j).data := h2
    simp only [List.cons.injEq, true_and] at h3
    exact natStrData_inj i j i j le_rfl le_rfl h3
  · have h3 : 'r' :: 'a' :: 'w' :: ':' :: ':' :: 's' :: 'o' :: 'u' :: 'r' ::
        'c' :: 'e' :: ':' :: ':' :: (natStr i).data =
        'r' :: 'a' :: 'w' :: ':' :: ':' :: 't' :: 'a' :: 'r' :: 'g' ::
        'e' :: 't' :: ':' :: ':' :: (natStr j).data := h2
    simp at h3
  · have h3 : 'r' :: 'a' :: 'w' :: ':' :: ':' :: 't' :: 'a' :: 'r' :: 'g' ::
        'e' :: 't' :: ':' :: ':' :: (natStr i).data =
        'r' :: 'a' :: 'w' :: ':' :: ':' :: 's' :: 'o' :: 'u' :: 'r' ::
        'c' :: 'e' :: ':' :: ':' :: (natStr j).data := h2
    simp at h3
  · refine ⟨rfl, ?_⟩
    have h3 : 'r' :: 'a' :: 'w' :: ':' :: ':' :: 't' :: 'a' :: 'r' :: 'g' ::
        'e' :: 't' :: ':' :: ':' :: (natStr i).data =
        'r' :: 'a' :: 'w' :: ':' :: ':' :: 't' :: 'a' :: 'r' :: 'g' ::
        'e' :: 't' :: ':' :: ':' :: (natStr j).data := h2
    simp only [List.cons.injEq, true_and] at h3
    exact natStrData_inj i j i j le_rfl le_rfl h3

theorem canonical_keys_shape (p : PRec) :
    ∀ k ∈ canonical_keys p, (∃ s, k = "tid::" ++ s) ∨
      (∃ s, k = "name::" ++ s) := by
  intro k hk
  unfold canonical_keys at hk
  by_cases h1 : (resolveTid p).isNull <;>
    by_cases h2 : normalizeV (orE (pget p "name") (.str "")) = "" <;>
      simp [h1, h2] at hk
  · exact Or.inr ⟨_, hk⟩
  · exact Or.inl ⟨_, hk⟩
  · rcases hk with hk | hk
    · exact Or.inl ⟨_, hk⟩
    · exact Or.inr ⟨_, hk⟩

theorem key_for_player_shape (p : PRec) :
    ∀ k ∈ key_for_player p, (∃ s, k = "tid::" ++ s) ∨
      (∃ s, k = "name::" ++ s) := by
  intro k hk
  unfold key_for_player at hk
  by_cases h1 : (resolveTid p).isNull <;>
    by_cases h2 : normalizeV (orE (pget p "name") (.str "")) = "" <;>
      simp [h1, h2] at hk
  · exact Or.inr ⟨_, hk⟩
  · exact Or.inl ⟨_, hk⟩
  · rcases hk with hk | hk
    · exact Or.inl ⟨_, hk⟩
    · exact Or.inr ⟨_, hk⟩

theorem canonical_keys_nodup (p : PRec) : (canonical_keys p).Nodup := by
  unfold canonical_keys
  by_cases h1 : (resolveTid p).isNull <;>
    by_cases h2 : normalizeV (orE (pget p "name") (.str "")) = "" <;>
      simp [h1, h2]
  exact tid_ne_name _ _

theorem key_for_player_nodup (p : PRec) : (key_for_player p).Nodup := by
  unfold key_for_player
  by_cases h1 : (resolveTid p).isNull <;>
    by_cases h2 : normalizeV (orE (pget p "name") (.str "")) = "" <;>
      simp [h1, h2]
  exact tid_ne_name _ _

theorem bucketAdd_cases {κ α : Type} [DecidableEq κ] :
    ∀ (m : List (κ × List α)) (k : κ) (v : α), ∀ b ∈ bucketAdd m k v,
      b ∈ m ∨ ∃ l, b = (k, l ++ [v]) ∧ ((k, l) ∈ m ∨ l = []) := by
  intro m
  induction m with
  | nil =>
    intro k v b hb
    simp only [bucketAdd, List.mem_singleton] at hb
    exact Or.inr ⟨[], by simpa using hb, Or.inr rfl⟩
  | cons e rest ih =>
    intro k v b hb
    obtain ⟨k', l'⟩ := e
    by_cases hk : k' = k
    · subst hk
      simp only [bucketAdd, if_pos rfl] at hb
      rcases List.mem_cons.mp hb with h | h
      · exact Or.inr ⟨l', h, Or.inl (by simp)⟩
      · exact Or.inl (List.mem_cons_of_mem _ h)
    · simp only [bucketAdd, if_neg hk] at hb
      rcases List.mem_cons.mp hb with h | h
      · exact Or.inl (by simp [h])
      · rcases ih k v b h with h' | ⟨l, he, hl⟩
        · exact Or.inl (List.mem_cons_of_mem _ h')
        · refine Or.inr ⟨l, he, ?_⟩
          rcases hl with hl | hl
          · exact Or.inl (List.mem_cons_of_mem _ hl)
          · exact Or.inr hl

theorem keysFold_cases {α : Type} :
    ∀ (keys : List String), keys.Nodup → ∀ (v : α)
      (m : List (String × List α)),
      ∀ b ∈ keys.foldl (fun m k => bucketAdd m k v) m,
        b ∈ m ∨ ∃ k ∈ keys, ∃ l, b = (k, l ++ [v]) ∧
          ((k, l) ∈ m ∨ l = []) := by
  intro keys
  induction keys with
  | nil => intro _ v m b hb; exact Or.inl hb
  | cons k keys ih =>
    intro hnd v m b hb
    have hknotin : k ∉ keys := (List.nodup_cons.mp hnd).1
    have hnd' := (List.nodup_cons.mp hnd).2
    simp only [List.foldl_cons] at hb
    rcases ih hnd' v (bucketAdd m k v) b hb with h | ⟨k', hk', l, he, hl⟩
    · rcases bucketAdd_cases m k v b h with h' | ⟨l, he, hl⟩
      · exact Or.inl h'
      · exact Or.inr ⟨k, by simp, l, he, hl⟩
    · refine Or.inr ⟨k', List.mem_cons_of_mem _ hk', l, he, ?_⟩
      rcases hl with hl | hl
      · rcases bucketAdd_cases m k v (k', l) hl with h' | ⟨l2, he2, _⟩
        · exact Or.inl h'
        · have : k' = k := congrArg Prod.fst he2
          exact absurd (this ▸ hk') hknotin
      · exact Or.inr hl

theorem tid_ne_rawkey (s f n : String) :
    ("tid::" ++ s) ≠ ("raw::" ++ f ++ "::" ++ n) := by
  intro h
  have h2 := congrArg String.data h
  simp only [String.data_append] at h2
  have h3 : 't' :: 'i' :: 'd' :: ':' :: ':' :: s.data =
      'r' :: 'a' :: 'w' :: ':' :: ':' :: ((f.data ++ "::".data) ++ n.data) :=
    h2
  simp at h3

theorem name_ne_rawkey (s f n : String) :
    ("name::" ++ s) ≠ ("raw::" ++ f ++ "::" ++ n) := by
  intro h
  have h2 := congrArg String.data h
  simp only [String.data_append] at h2
  have h3 : 'n' :: 'a' :: 'm' :: 'e' :: ':' :: ':' :: s.data =
      'r' :: 'a' :: 'w' :: ':' :: ':' :: ((f.data ++ "::".data) ++ n.data) :=
    h2
  simp at h3

/-- The invariant of the cross-dataset clustering fold for a fixed source
position `i` whose record yields no keys: any occurrence tagged
`("source", i)` lives only in the `raw::source::i` bucket, whose size is
bounded by the number of processed `("source", i)` triples. -/
def CrossInv (f0 : String) (i : Nat) (processed : List (String × Nat × PRec))
    (m : List (String × List OccE)) : Prop :=
  (∀ b ∈ m, ∀ x ∈ b.2, x.file = f0 → x.index = i →
    b.1 = "raw::" ++ f0 ++ "::" ++ natStr i) ∧
  (∀ b ∈ m, b.1 = "raw::" ++ f0 ++ "::" ++ natStr i →
    b.2.length ≤ processed.countP
      (fun t => t.1 == f0 && t.2.1 == i))

theorem crossStep_inv (f0 : String) (hf0 : f0 = "source" ∨ f0 = "target")
    (i : Nat) (t : String × Nat × PRec)
    (processed : List (String × Nat × PRec))
    (m : List (String × List OccE))
    (ht1 : t.1 = "source" ∨ t.1 = "target")
    (ht2 : t.1 = f0 → t.2.1 = i → (canonical_keys t.2.2).isEmpty)
    (h : CrossInv f0 i processed m) :
    CrossInv f0 i (processed ++ [t]) (groupsMapStep m t) := by
  obtain ⟨hS, hR⟩ := h
  unfold groupsMapStep
  by_cases hk : (canonical_keys t.2.2).isEmpty
  · rw [if_pos hk]
    by_cases hPt : t.1 = f0 ∧ t.2.1 = i
    · have hkey : ("raw::" ++ t.1 ++ "::" ++ natStr t.2.1) =
          "raw::" ++ f0 ++ "::" ++ natStr i := by
        rw [hPt.1, hPt.2]
      have hcnt : (processed ++ [t]).countP
          (fun t => t.1 == f0 && t.2.1 == i) =
          processed.countP (fun t => t.1 == f0 && t.2.1 == i) + 1 := by
        rw [List.countP_append]
        simp [hPt.1, hPt.2]
      constructor
      · intro b hb x hx hf hi2
        rcases bucketAdd_cases m _ _ b hb with h' | ⟨l, he, hl⟩
        · exact hS b h' x hx hf hi2
        · rw [he]
          exact hkey
      · intro b hb hbk
        rw [hcnt]
        rcases bucketAdd_cases m _ _ b hb with h' | ⟨l, he, hl⟩
        · exact le_trans (hR b h' hbk) (by omega)
        · rw [he]
          simp only [List.length_append, List.length_singleton]
          rcases hl with hl | hl
          · have h4 : l.length ≤ processed.countP
                (fun t => t.1 == f0 && t.2.1 == i) := by
              simpa using hR _ hl hkey
            omega
          · subst hl
            simp
  -- not the tracked pair: the raw key differs
    · have hkne : ("raw::" ++ t.1 ++ "::" ++ natStr t.2.1) ≠
          "raw::" ++ f0 ++ "::" ++ natStr i := by
        intro he
        have h2 := raw_key_inj ht1 hf0 he
        exact hPt ⟨h2.1, h2.2⟩
      have hptF : (t.1 == f0 && t.2.1 == i) = false := by
        by_cases h1 : t.1 = f0 <;> by_cases h2 : t.2.1 = i <;>
          simp [h1, h2]
        exact absurd ⟨h1, h2⟩ hPt
      have hcnt : (processed ++ [t]).countP
          (fun t => t.1 == f0 && t.2.1 == i) =
          processed.countP (fun t => t.1 == f0 && t.2.1 == i) := by
        rw [List.countP_append]
        simp [hptF]
      constructor
      · intro b hb x hx hf hi2
        rcases bucketAdd_cases m _ _ b hb with h' | ⟨l, he, hl⟩
        · exact hS b h' x hx hf hi2
        · rw [he] at hx
          rcases List.mem_append.mp hx with hxl | hxr
          · rcases hl with hl | hl
            · exact absurd (hS _ hl x hxl hf hi2) hkne
            · subst hl
              simp at hxl
          · simp only [List.mem_singleton] at hxr
            subst hxr
            exact absurd ⟨hf, hi2⟩ hPt
      · intro b hb hbk
        rw [hcnt]
        rcases bucketAdd_cases m _ _ b hb with h' | ⟨l, he, hl⟩
        · exact hR b h' hbk
        · rw [he] at hbk
          exact absurd hbk hkne
  · rw [if_neg hk]
    have hPt : ¬(t.1 = f0 ∧ t.2.1 = i) := fun hp =>
      hk (ht2 hp.1 hp.2)
    have hptF : (t.1 == f0 && t.2.1 == i) = false := by
      by_cases h1 : t.1 = f0 <;> by_cases h2 : t.2.1 = i <;>
        simp [h1, h2]
      exact absurd ⟨h1, h2⟩ hPt
    have hcnt : (processed ++ [t]).countP
        (fun t => t.1 == f0 && t.2.1 == i) =
        processed.countP (fun t => t.1 == f0 && t.2.1 == i) := by
      rw [List.countP_append]
      simp [hptF]
    constructor
    · intro b hb x hx hf hi2
      rcases keysFold_cases (canonical_keys t.2.2) (canonical_keys_nodup _)
          _ m b hb with h' | ⟨k, hkm, l, he, hl⟩
      · exact hS b h' x hx hf hi2
      · rw [he] at hx
        rcases List.mem_append.mp hx with hxl | hxr
        · rcases hl with hl | hl
          · have hrk := hS _ hl x hxl hf hi2
            rcases canonical_keys_shape _ k hkm with ⟨s, rfl⟩ | ⟨s, rfl⟩
            · exact absurd hrk (tid_ne_rawkey s _ _)
            · exact absurd hrk (name_ne_rawkey s _ _)
          · subst hl
            simp at hxl
        · simp only [List.mem_singleton] at hxr
          subst hxr
          exact absurd ⟨hf, hi2⟩ hPt
    · intro b hb hbk
      rw [hcnt]
      rcases keysFold_cases (canonical_keys t.2.2) (canonical_keys_nodup _)
          _ m b hb with h' | ⟨k, hkm, l, he, hl⟩
      · exact hR b h' hbk
      · rw [he] at hbk
        rcases canonical_keys_shape _ k hkm with ⟨s, hs⟩ | ⟨s, hs⟩
        · exact absurd (hs ▸ hbk) (tid_ne_rawkey s _ _)
        · exact absurd (hs ▸ hbk) (name_ne_rawkey s _ _)

theorem crossFold_inv (f0 : String) (hf0 : f0 = "source" ∨ f0 = "target") (i : Nat) :
    ∀ (l : List (String × Nat × PRec))
      (processed : List (String × Nat × PRec))
      (m : List (String × List OccE)),
      (∀ t ∈ l, (t.1 = "source" ∨ t.1 = "target") ∧
        (t.1 = f0 → t.2.1 = i → (canonical_keys t.2.2).isEmpty)) →
      CrossInv f0 i processed m →
      CrossInv f0 i (processed ++ l) (l.foldl groupsMapStep m) := by
  intro l
  induction l with
  | nil => intro processed m _ h; simpa using h
  | cons t l ih =>
    intro processed m hc h
    have h2 := ih (processed ++ [t]) (groupsMapStep m t)
      (fun t' ht' => hc t' (List.mem_cons_of_mem _ ht'))
      (crossStep_inv f0 hf0 i t processed m (hc t (by simp)).1 (hc t (by simp)).2 h)
    simpa [List.append_assoc] using h2

theorem mem_enumFrom_le {α : Type} :
    ∀ (l : List α) (n : Nat) (p : Nat × α), p ∈ List.enumFrom n l → n ≤ p.1 := by
  intro l
  induction l with
  | nil => intro n p hp; simp [List.enumFrom] at hp
  | cons a l ih =>
    intro n p hp
    rcases List.mem_cons.mp hp with h | h
    · subst h; simp
    · have := ih (n + 1) p h
      omega

theorem countP_enumFrom_le_one {α : Type} (i : Nat) :
    ∀ (l : List α) (n : Nat),
      (List.enumFrom n l).countP (fun ip => ip.1 == i) ≤ 1 := by
  intro l
  induction l with
  | nil => intro n; simp [List.enumFrom]
  | cons a l ih =>
    intro n
    show ((n, a) :: List.enumFrom (n + 1) l).countP (fun ip => ip.1 == i) ≤ 1
    rw [List.countP_cons]
    by_cases hn : n = i
    · subst hn
      have hzero : (List.enumFrom (n + 1) l).countP
          (fun ip => ip.1 == n) = 0 := by
        apply List.countP_eq_zero.mpr
        intro p hp
        have := mem_enumFrom_le l (n + 1) p hp
        simp only [beq_iff_eq]
        omega
      rw [hzero]
      simp
    · have := ih (n + 1)
      simp only [beq_iff_eq, hn]
      simpa using this

theorem combined_countP (src tgt : List PRec) (f0 : String)
    (hf0 : f0 = "source" ∨ f0 = "target") (i : Nat) :
    (combinedOf src tgt).countP
      (fun t => t.1 == f0 && t.2.1 == i) ≤ 1 := by
  unfold combinedOf
  rw [List.countP_append]
  rcases hf0 with rfl | rfl
  · have htgt : (tgt.enum.map (fun ip => ("target", ip.1, ip.2))).countP
        (fun t => t.1 == "source" && t.2.1 == i) = 0 := by
      apply List.countP_eq_zero.mpr
      intro t ht
      obtain ⟨ip, _, hip⟩ := List.mem_map.mp ht
      rw [← hip]
      simp
    have hsrc : (src.enum.map (fun ip => ("source", ip.1, ip.2))).countP
        (fun t => t.1 == "source" && t.2.1 == i) =
        src.enum.countP (fun ip => ip.1 == i) := by
      rw [List.countP_map]
      congr 1
    rw [htgt, hsrc]
    have := countP_enumFrom_le_one (α := PRec) i src 0
    simpa [List.enum] using this
  · have hsrc : (src.enum.map (fun ip => ("source", ip.1, ip.2))).countP
        (fun t => t.1 == "target" && t.2.1 == i) = 0 := by
      apply List.countP_eq_zero.mpr
      intro t ht
      obtain ⟨ip, _, hip⟩ := List.mem_map.mp ht
      rw [← hip]
      simp
    have htgt : (tgt.enum.map (fun ip => ("target", ip.1, ip.2))).countP
        (fun t => t.1 == "target" && t.2.1 == i) =
        tgt.enum.countP (fun ip => ip.1 == i) := by
      rw [List.countP_map]
      congr 1
    rw [htgt, hsrc]
    have := countP_enumFrom_le_one (α := PRec) i tgt 0
    simpa [List.enum] using this

theorem cross_keyless_no_group (src tgt : List PRec) (f0 : String)
    (hf0 : f0 = "source" ∨ f0 = "target") (i : Nat)
    (hkc : ∀ t ∈ combinedOf src tgt, t.1 = f0 → t.2.1 = i →
      (canonical_keys t.2.2).isEmpty) :
    ∀ g ∈ find_common_groups src tgt, ∀ o ∈ g.occurrences,
      ¬(o.1 = f0 ∧ o.2.1 = i) := by
  have hconds : ∀ t ∈ combinedOf src tgt,
      (t.1 = "source" ∨ t.1 = "target") ∧
      (t.1 = f0 → t.2.1 = i → (canonical_keys t.2.2).isEmpty) := by
    intro t ht
    refine ⟨?_, hkc t ht⟩
    unfold combinedOf at ht
    rcases List.mem_append.mp ht with h | h
    · obtain ⟨ip, _, he⟩ := List.mem_map.mp h
      subst he
      exact Or.inl rfl
    · obtain ⟨ip, _, he⟩ := List.mem_map.mp h
      subst he
      exact Or.inr rfl
  have hinv : CrossInv f0 i (combinedOf src tgt) (buildGroupsMap src tgt) := by
    have h0 : CrossInv f0 i [] [] := ⟨by simp, by simp⟩
    simpa using crossFold_inv f0 hf0 i (combinedOf src tgt) [] [] hconds h0
  obtain ⟨hS, hR⟩ := hinv
  intro g hg o ho ⟨hof, hoi⟩
  obtain ⟨_, _, _, h4, _⟩ := dedupe_inv (buildGroupsMap src tgt)
  obtain ⟨b, hb, hblen, hocc, _, _⟩ := h4 g
    (by simpa [find_common_groups, dedupeBySignature] using hg)
  rw [hocc] at ho
  obtain ⟨oc, hoc, hoco⟩ := List.mem_map.mp ho
  have hocf : oc.file = f0 := by rw [← hof, ← hoco]
  have hoci : oc.index = i := by rw [← hoi, ← hoco]
  have hb1 := hS b hb oc hoc hocf hoci
  have hb2 := hR b hb hb1
  have hb3 := combined_countP src tgt f0 hf0 i
  omega

/-- Fallback-key invariant for the intra-dataset pass at a fixed index
`i` whose record yields no canonical key: any bucket holding an
occurrence with index `i` is the `index::i` fallback bucket, and that
bucket never outgrows the number of processed entries at index `i`. -/
def IntraInv (i : Nat) (processed : List (Nat × PRec))
    (m : List (String × List IdxPlayer)) : Prop :=
  (∀ b ∈ m, ∀ x ∈ b.2, x.index = i → b.1 = "index::" ++ natStr i) ∧
  (∀ b ∈ m, b.1 = "index::" ++ natStr i →
    b.2.length ≤ processed.countP (fun t => t.1 == i))

theorem intraStep_inv (i : Nat) (t : Nat × PRec)
    (processed : List (Nat × PRec)) (m : List (String × List IdxPlayer))
    (ht2 : t.1 = i → (key_for_player t.2).isEmpty)
    (h : IntraInv i processed m) :
    IntraInv i (processed ++ [t]) (byKeyStep m t) := by
  obtain ⟨hS, hR⟩ := h
  unfold byKeyStep
  by_cases hk : (key_for_player t.2).isEmpty
  · rw [if_pos hk]
    by_cases hPt : t.1 = i
    · have hkey : ("index::" ++ natStr t.1) = "index::" ++ natStr i := by
        rw [hPt]
      have hcnt : (processed ++ [t]).countP (fun t => t.1 == i) =
          processed.countP (fun t => t.1 == i) + 1 := by
        rw [List.countP_append]
        simp [hPt]
      constructor
      · intro b hb x hx hi2
        rcases bucketAdd_cases m _ _ b hb with h' | ⟨l, he, hl⟩
        · exact hS b h' x hx hi2
        · rw [he]
          exact hkey
      · intro b hb hbk
        rw [hcnt]
        rcases bucketAdd_cases m _ _ b hb with h' | ⟨l, he, hl⟩
        · exact le_trans (hR b h' hbk) (by omega)
        · rw [he]
          simp only [List.length_append, List.length_singleton]
          rcases hl with hl | hl
          · have h4 : l.length ≤ processed.countP (fun t => t.1 == i) := by
              simpa using hR _ hl hkey
            omega
          · subst hl
            simp
    · have hkne : ("index::" ++ natStr t.1) ≠ "index::" ++ natStr i :=
        fun he => hPt (index_key_inj he)
      have hcnt : (processed ++ [t]).countP (fun t => t.1 == i) =
          processed.countP (fun t => t.1 == i) := by
        rw [List.countP_append]
        simp [hPt]
      constructor
      · intro b hb x hx hi2
        rcases bucketAdd_cases m _ _ b hb with h' | ⟨l, he, hl⟩
        · exact hS b h' x hx hi2
        · rw [he] at hx
          rcases List.mem_append.mp hx with hxl | hxr
          · rcases hl with hl | hl
            · exact absurd (hS _ hl x hxl hi2) hkne
            · subst hl
              simp at hxl
          · simp only [List.mem_singleton] at hxr
            subst hxr
            exact absurd hi2 hPt
      · intro b hb hbk
        rw [hcnt]
        rcases bucketAdd_cases m _ _ b hb with h' | ⟨l, he, hl⟩
        · exact hR b h' hbk
        · rw [he] at hbk
          exact absurd hbk hkne
  · rw [if_neg hk]
    have hPt : ¬(t.1 = i) := fun hp => hk (ht2 hp)
    have hcnt : (processed ++ [t]).countP (fun t => t.1 == i) =
        processed.countP (fun t => t.1 == i) := by
      rw [List.countP_append]
      simp [hPt]
    constructor
    · intro b hb x hx hi2
      rcases keysFold_cases (key_for_player t.2) (key_for_player_nodup _)
          _ m b hb with h' | ⟨k, hkm, l, he, hl⟩
      · exact hS b h' x hx hi2
      · rw [he] at hx
        rcases List.mem_append.mp hx with hxl | hxr
        · rcases hl with hl | hl
          · have hrk := hS _ hl x hxl hi2
            rcases key_for_player_shape _ k hkm with ⟨s, rfl⟩ | ⟨s, rfl⟩
            · exact absurd hrk (tid_ne_index s _)
            · exact absurd hrk (name_ne_index s _)
          · subst hl
            simp at hxl
        · simp only [List.mem_singleton] at hxr
          subst hxr
          exact absurd hi2 hPt
    · intro b hb hbk
      rw [hcnt]
      rcases keysFold_cases (key_for_player t.2) (key_for_player_nodup _)
          _ m b hb with h' | ⟨k, hkm, l, he, hl⟩
      · exact hR b h' hbk
      · rw [he] at hbk
        rcases key_for_player_shape _ k hkm with ⟨s, hs⟩ | ⟨s, hs⟩
        · exact absurd (hs ▸ hbk) (tid_ne_index s _)
        · exact absurd (hs ▸ hbk) (name_ne_index s _)

theorem intraFold_inv (i : Nat) :
    ∀ (l : List (Nat × PRec)) (processed : List (Nat × PRec))
      (m : List (String × List IdxPlayer)),
      (∀ t ∈ l, t.1 = i → (key_for_player t.2).isEmpty) →
      IntraInv i processed m →
      IntraInv i (processed ++ l) (l.foldl byKeyStep m) := by
  intro l
  induction l with
  | nil => intro processed m _ h; simpa using h
  | cons t l ih =>
    intro processed m hc h
    have h2 := ih (processed ++ [t]) (byKeyStep m t)
      (fun t' ht' => hc t' (List.mem_cons_of_mem _ ht'))
      (intraStep_inv i t processed m (hc t (by simp)) h)
    simpa [List.append_assoc] using h2

theorem collectGroups_mem :
    ∀ (m : List (String × List IdxPlayer)) (seen : List (List Nat)),
      ∀ g ∈ collectGroups m seen, ∃ b ∈ m, 1 < b.2.length ∧
        g.key = b.1 ∧ g.indices = b.2.map IdxPlayer.index := by
  intro m
  induction m with
  | nil => intro seen g hg; simp [collectGroups] at hg
  | cons e rest ih =>
    intro seen g hg
    obtain ⟨k, lst⟩ := e
    simp only [collectGroups] at hg
    by_cases hlen : lst.length > 1
    · rw [if_pos hlen] at hg
      by_cases hseen : seen.contains (sortNat (lst.map (·.index)))
      · rw [if_pos hseen] at hg
        obtain ⟨b, hb, h⟩ := ih seen g hg
        exact ⟨b, List.mem_cons_of_mem _ hb, h⟩
      · rw [if_neg hseen] at hg
        rcases List.mem_cons.mp hg with h | h
        · exact ⟨(k, lst), by simp, hlen, by rw [h], by rw [h]⟩
        · obtain ⟨b, hb, hrest⟩ := ih _ g h
          exact ⟨b, List.mem_cons_of_mem _ hb, hrest⟩
    · rw [if_neg hlen] at hg
      obtain ⟨b, hb, h⟩ := ih seen g hg
      exact ⟨b, List.mem_cons_of_mem _ hb, h⟩

theorem intra_keyless_no_group (players : List PRec) (i : Nat)
    (hi : i < players.length) (hkeys : key_for_player players[i] = []) :
    ∀ g ∈ find_duplicates players, i ∉ g.indices := by
  have hconds : ∀ t ∈ players.enum, t.1 = i →
      (key_for_player t.2).isEmpty := by
    intro t ht hidx
    have hget := List.mem_enum_iff_getElem?.mp ht
    rw [hidx] at hget
    have : t.2 = players[i] := by
      rw [List.getElem?_eq_getElem hi] at hget
      exact (Option.some.injEq .. ▸ hget).symm
    simp only [this, hkeys]
    rfl
  have hinv : IntraInv i players.enum (buildByKey players) := by
    have h0 : IntraInv i [] [] := ⟨by simp, by simp⟩
    simpa using intraFold_inv i players.enum [] [] hconds h0
  obtain ⟨hS, hR⟩ := hinv
  intro g hg hmem
  obtain ⟨b, hb, hblen, _, hgi⟩ := collectGroups_mem (buildByKey players)
    [] g (by simpa [find_duplicates] using hg)
  rw [hgi] at hmem
  obtain ⟨x, hx, hxi⟩ := List.mem_map.mp hmem
  have hb1 := hS b hb x hx hxi
  have hb2 := hR b hb hb1
  have hb3 := countP_enumFrom_le_one (α := PRec) i players 0
  rw [show players.enum = List.enumFrom 0 players from rfl] at hb2
  omega

/-- C8 counterexample: the claim says the fallback key is "tagged by
dataset and index" in both grouping passes. The cross-file pass's
fallback key is indeed `raw::file::idx`, but the intra-dataset pass of
`find_duplicates` uses `index::idx`, a function of the position alone
with no dataset tag: a keyless record at position 0 receives the key
`index::0` whatever the dataset is, and that key differs from every
string of the `raw::file::idx` shape. -/
theorem C8_counterexample :
    (buildByKey [[]]).map Prod.fst = ["index::0"] ∧
    (buildByKey [[("x", Value.null)]]).map Prod.fst = ["index::0"] ∧
    (buildGroupsMap [[]] []).map Prod.fst =
      ["raw::" ++ "source" ++ "::" ++ "0"] ∧
    (∀ f : String, ("index::" ++ natStr 0) ≠
      ("raw::" ++ f ++ "::" ++ natStr 0)) := by
  refine ⟨rfl, rfl, rfl, ?_⟩
  intro f h
  have h2 := congrArg String.data h
  simp only [String.data_append] at h2
  simp at h2

/-- C8 (amended): a record with neither a resolvable identifier nor a
non-empty normalized name yields zero keys from both key extractors,
and then never appears in any emitted group: it joins no intra-dataset
duplicate group of `find_duplicates` (whose singleton fallback key
`index::idx` is tagged by position only, not by dataset), and none of
its occurrences — on either the source or the target side — appears in
any group emitted by `find_common_groups` (whose fallback key
`raw::file::idx` is tagged by dataset and index). -/
theorem C8_amended (p : PRec)
    (hid : (resolveTid p).isNull = true)
    (hnm : normalizeV (orE (pget p "name") (.str "")) = "") :
    key_for_player p = [] ∧ canonical_keys p = [] ∧
    (∀ (players : List PRec) (i : Nat) (hi : i < players.length),
      players[i] = p → ∀ g ∈ find_duplicates players, i ∉ g.indices) ∧
    (∀ (src tgt : List PRec) (i : Nat) (hi : i < src.length),
      src[i] = p → ∀ g ∈ find_common_groups src tgt,
        ∀ o ∈ g.occurrences, ¬(o.1 = "source" ∧ o.2.1 = i)) ∧
    (∀ (src tgt : List PRec) (i : Nat) (hi : i < tgt.length),
      tgt[i] = p → ∀ g ∈ find_common_groups src tgt,
        ∀ o ∈ g.occurrences, ¬(o.1 = "target" ∧ o.2.1 = i)) := by
  have hkfp : key_for_player p = [] := by
    unfold key_for_player
    simp [hid, hnm]
  have hck : canonical_keys p = [] := by
    unfold canonical_keys
    simp [hid, hnm]
  refine ⟨hkfp, hck, ?_, ?_, ?_⟩
  · intro players i hi hp
    exact intra_keyless_no_group players i hi (hp ▸ hkfp)
  · intro src tgt i hi hp
    apply cross_keyless_no_group src tgt "source" (Or.inl rfl) i
    intro t ht htf hti
    unfold combinedOf at ht
    rcases List.mem_append.mp ht with h | h
    · obtain ⟨ip, hip, he⟩ := List.mem_map.mp h
      subst he
      have hget := List.mem_enum_iff_getElem?.mp hip
      simp only at hti
      rw [hti] at hget
      have he2 : ip.2 = p := by
        rw [List.getElem?_eq_getElem hi, hp] at hget
        exact (Option.some.injEq .. ▸ hget).symm
      simp only [he2, hck]
      rfl
    · obtain ⟨ip, _, he⟩ := List.mem_map.mp h
      subst he
      simp at htf
  · intro src tgt i hi hp
    apply cross_keyless_no_group src tgt "target" (Or.inr rfl) i
    intro t ht htf hti
    unfold combinedOf at ht
    rcases List.mem_append.mp ht with h | h
    · obtain ⟨ip, _, he⟩ := List.mem_map.mp h
      subst he
      simp at htf
    · obtain ⟨ip, hip, he⟩ := List.mem_map.mp h
      subst he
      have hget := List.mem_enum_iff_getElem?.mp hip
      simp only at hti
      rw [hti] at hget
      have he2 : ip.2 = p := by
        rw [List.getElem?_eq_getElem hi, hp] at hget
        exact (Option.some.injEq .. ▸ hget).symm
      simp only [he2, hck]
      rfl

theorem C8_witness :
    key_for_player ([] : PRec) = [] ∧
    canonical_keys ([] : PRec) = [] ∧
    (∀ g ∈ find_duplicates [[], []], (0 : Nat) ∉ g.indices) :=
  ⟨(C8_amended [] rfl rfl).1,
   (C8_amended [] rfl rfl).2.1,
   fun g hg =>
     (C8_amended [] rfl rfl).2.2.1 [[], []] 0 (by decide) rfl g hg⟩

/-! ### Identity, range and disjointness facts for `similar` -/

theorem bucketAdd_lookup_char {α : Type} :
    ∀ (m : List (Char × List α)) (k k' : Char) (v : α),
      (bucketAdd m k v).lookup k' =
        if k' = k then some (((m.lookup k).getD []) ++ [v])
        else m.lookup k' := by
  intro m
  induction m with
  | nil =>
    intro k k' v
    by_cases h : k' = k
    · subst h
      simp [bucketAdd, List.lookup]
    · have hb : (k' == k) = false := by simpa using h
      simp [bucketAdd, List.lookup, hb, h]
  | cons e rest ih =>
    intro k k' v
    obtain ⟨k0, l0⟩ := e
    by_cases h0 : k0 = k
    · subst h0
      by_cases h1 : k' = k0
      · subst h1
        simp [bucketAdd, List.lookup]
      · have hb : (k' == k0) = false := by simpa using h1
        simp [bucketAdd, List.lookup, hb, h1]
    · simp only [bucketAdd, if_neg h0]
      by_cases h1 : k' = k0
      · subst h1
        have hkk : ¬(k' = k) := fun he => h0 (by rw [← he])
        have hb : (k' == k') = true := by simp
        simp [List.lookup, hkk, hb]
      · have hb : (k' == k0) = false := by simpa using h1
        have hb2 : (k == k0) = false := by
          simp only [beq_eq_false_iff_ne]
          exact fun he => h0 he.symm
        simp only [List.lookup, hb, hb2]
        rw [ih]

theorem foldBucket_lookup :
    ∀ (l : List (Nat × Char)) (m0 : List (Char × List Nat)) (c : Char),
      (((l.foldl (fun m jc => bucketAdd m jc.2 jc.1) m0).lookup c).getD []) =
        ((m0.lookup c).getD []) ++
          (l.filter (fun jc => jc.2 = c)).map Prod.fst := by
  intro l
  induction l with
  | nil => intro m0 c; simp
  | cons jc l ih =>
    intro m0 c
    simp only [List.foldl_cons]
    rw [ih]
    by_cases h : jc.2 = c
    · rw [bucketAdd_lookup_char]
      rw [if_pos h.symm]
      simp only [Option.getD_some]
      rw [List.filter_cons, if_pos (by simpa using h)]
      simp only [List.map_cons]
      rw [h, List.append_assoc]
      rfl
    · rw [bucketAdd_lookup_char]
      rw [if_neg (fun he => h he.symm)]
      rw [List.filter_cons, if_neg (by simpa using h)]

theorem b2jGet_raw (b : List Char) (c : Char) :
    b2jGet (b.enum.foldl (fun m jc => bucketAdd m jc.2 jc.1) []) c =
      (b.enum.filter (fun jc => jc.2 = c)).map Prod.fst := by
  unfold b2jGet
  rw [foldBucket_lookup]
  simp [List.lookup]

theorem bucketAdd_keysOr {κ α : Type} [DecidableEq κ] :
    ∀ (m : List (κ × List α)) (k : κ) (v : α),
      (k ∈ m.map Prod.fst ∧
        (bucketAdd m k v).map Prod.fst = m.map Prod.fst) ∨
      (k ∉ m.map Prod.fst ∧
        (bucketAdd m k v).map Prod.fst = m.map Prod.fst ++ [k]) := by
  intro m
  induction m with
  | nil => intro k v; exact Or.inr ⟨by simp, by simp [bucketAdd]⟩
  | cons e rest ih =>
    intro k v
    obtain ⟨k0, l0⟩ := e
    by_cases h0 : k0 = k
    · subst h0
      exact Or.inl ⟨by simp, by simp [bucketAdd]⟩
    · rcases ih k v with ⟨hm, he⟩ | ⟨hm, he⟩
      · exact Or.inl ⟨by simp [hm], by simp [bucketAdd, h0, he]⟩
      · refine Or.inr ⟨?_, by simp [bucketAdd, h0, he]⟩
        simp only [List.map_cons, List.mem_cons]
        rintro (h | h)
        · exact h0 h.symm
        · exact hm h

theorem foldBucket_keys_nodup :
    ∀ (l : List (Nat × Char)) (m0 : List (Char × List Nat)),
      ((m0.map Prod.fst).Nodup) →
      (((l.foldl (fun m jc => bucketAdd m jc.2 jc.1) m0).map
        Prod.fst).Nodup) := by
  intro l
  induction l with
  | nil => intro m0 h; exact h
  | cons jc l ih =>
    intro m0 h
    simp only [List.foldl_cons]
    apply ih
    rcases bucketAdd_keysOr m0 jc.2 jc.1 with ⟨_, he⟩ | ⟨hm, he⟩
    · rw [he]; exact h
    · rw [he]
      rw [← List.concat_eq_append]
      exact List.Nodup.concat hm h

theorem lookup_none_of_not_mem_keys {κ α : Type} [BEq κ] [LawfulBEq κ] :
    ∀ (m : List (κ × α)) (c : κ), c ∉ m.map Prod.fst → m.lookup c = none := by
  intro m
  induction m with
  | nil => intro c _; rfl
  | cons e rest ih =>
    intro c hc
    simp only [List.map_cons, List.mem_cons] at hc
    push_neg at hc
    have hb : (c == e.1) = false := by
      simp only [beq_eq_false_iff_ne]
      exact hc.1
    obtain ⟨k0, v0⟩ := e
    simp only [List.lookup, hb]
    exact ih c hc.2

theorem lookup_filter_nodup {α : Type} (q : Char × List α → Bool) :
    ∀ (m : List (Char × List α)), (m.map Prod.fst).Nodup → ∀ (c : Char),
      (m.filter q).lookup c = ((m.lookup c).bind
        (fun v => if q (c, v) then some v else none)) := by
  intro m
  induction m with
  | nil => intro _ c; rfl
  | cons e rest ih =>
    intro hnd c
    obtain ⟨k0, l0⟩ := e
    have hnd2 : ((rest.map Prod.fst).Nodup) := (List.nodup_cons.mp (by
      simpa using hnd)).2
    have hk0 : k0 ∉ rest.map Prod.fst := (List.nodup_cons.mp (by
      simpa using hnd)).1
    by_cases hc : c = k0
    · subst hc
      by_cases hq : q (c, l0)
      · rw [List.filter_cons, if_pos (by simpa using hq)]
        simp [List.lookup, hq]
      · rw [List.filter_cons, if_neg (by simpa using hq)]
        have h1 : (rest.filter q).lookup c = none := by
          apply lookup_none_of_not_mem_keys
          intro hmem
          apply hk0
          obtain ⟨e, he, hee⟩ := List.mem_map.mp hmem
          exact List.mem_map.mpr ⟨e, List.mem_of_mem_filter he, hee⟩
        rw [h1]
        simp [List.lookup, hq]
    · have hb : (c == k0) = false := by simpa using hc
      by_cases hq : q (k0, l0)
      · rw [List.filter_cons, if_pos (by simpa using hq)]
        simp only [List.lookup, hb]
        exact ih hnd2 c
      · rw [List.filter_cons, if_neg (by simpa using hq)]
        rw [ih hnd2 c]
        simp only [List.lookup, hb]

/-- The `b2j` dichotomy: each bucket is either deleted wholesale by the
autojunk pruning or is the full increasing position list of its
element. -/
theorem b2jGet_b2jOf (b : List Char) (c : Char) :
    b2jGet (b2jOf b) c = [] ∨
    b2jGet (b2jOf b) c =
      (b.enum.filter (fun jc => jc.2 = c)).map Prod.fst := by
  unfold b2jOf
  by_cases hlen : 200 ≤ b.length
  · rw [if_pos hlen]
    have hnd := foldBucket_keys_nodup b.enum [] (by simp)
    show b2jGet ((b.enum.foldl (fun m jc => bucketAdd m jc.2 jc.1)
      []).filter (fun e => e.2.length ≤ b.length / 100 + 1)) c = [] ∨ _
    unfold b2jGet
    rw [lookup_filter_nodup _ _ hnd c]
    rcases hr : (b.enum.foldl (fun m jc => bucketAdd m jc.2 jc.1)
        []).lookup c with _ | v
    · rw [hr]; left; rfl
    · rw [hr]
      by_cases hq : (v.length ≤ b.length / 100 + 1)
      · right
        have h2 : b2jGet (b.enum.foldl (fun m jc => bucketAdd m jc.2 jc.1)
            []) c = v := by
          unfold b2jGet; rw [hr]; rfl
        rw [← b2jGet_raw, ← h2]
        simp [h2, hq]
      · left
        simp [hq]
  · rw [if_neg hlen]
    right
    exact b2jGet_raw b c

theorem b2jGet_char (b : List Char) (c : Char) :
    ∀ j ∈ b2jGet (b2jOf b) c, b.getD j ' ' = c ∧ j < b.length := by
  intro j hj
  rcases b2jGet_b2jOf b c with h | h
  · rw [h] at hj; simp at hj
  · rw [h] at hj
    obtain ⟨jc, hjc, he⟩ := List.mem_map.mp hj
    have hc := (List.mem_filter.mp hjc).2
    have hmem := (List.mem_filter.mp hjc).1
    have hget := List.mem_enum_iff_getElem?.mp hmem
    have hlt : jc.1 < b.length := by
      by_contra hge
      rw [List.getElem?_eq_none (by omega)] at hget
      exact Option.noConfusion hget
    have hcc : jc.2 = c := by simpa using hc
    subst he
    refine ⟨?_, hlt⟩
    rw [List.getD_eq_getElem?_getD, hget]
    exact hcc

theorem pairwise_fst_lt_enumFrom {α : Type} :
    ∀ (l : List α) (n : Nat),
      List.Pairwise (fun p q => p.1 < q.1) (List.enumFrom n l) := by
  intro l
  induction l with
  | nil => intro n; exact List.Pairwise.nil
  | cons a l ih =>
    intro n
    show List.Pairwise _ ((n, a) :: List.enumFrom (n + 1) l)
    refine List.Pairwise.cons ?_ (ih (n + 1))
    intro q hq
    have := mem_enumFrom_le l (n + 1) q hq
    omega

theorem b2jGet_sorted (b : List Char) (c : Char) :
    List.Pairwise (· < ·) (b2jGet (b2jOf b) c) := by
  rcases b2jGet_b2jOf b c with h | h
  · rw [h]; exact List.Pairwise.nil
  · rw [h]
    rw [List.pairwise_map]
    exact List.Pairwise.sublist (List.filter_sublist _)
      (pairwise_fst_lt_enumFrom b 0)

theorem b2jGet_self_mem (a : List Char) (i : Nat) (hi : i < a.length) :
    b2jGet (b2jOf a) (a.getD i ' ') = [] ∨
      i ∈ b2jGet (b2jOf a) (a.getD i ' ') := by
  rcases b2jGet_b2jOf a (a.getD i ' ') with h | h
  · exact Or.inl h
  · right
    rw [h]
    refine List.mem_map.mpr ⟨(i, a.getD i ' '), ?_, rfl⟩
    refine List.mem_filter.mpr ⟨?_, by simp⟩
    apply List.mem_enum_iff_getElem?.mpr
    rw [List.getElem?_eq_getElem hi]
    rw [List.getD_eq_getElem?_getD, List.getElem?_eq_getElem hi]
    rfl

/-- Run length of consecutive surviving (un-pruned) positions of `a`
ending at `i`, for the self-comparison `SequenceMatcher(None, a, a)`. -/
def rrF (a : List Char) : Nat → Nat
  | 0 => if b2jGet (b2jOf a) (a.getD 0 ' ') = [] then 0 else 1
  | i + 1 => if b2jGet (b2jOf a) (a.getD (i + 1) ' ') = [] then 0
    else rrF a i + 1

theorem rrF_pos (a : List Char) (i : Nat)
    (h : b2jGet (b2jOf a) (a.getD i ' ') ≠ []) :
    rrF a i = getPrev (rrF a) i + 1 := by
  cases i with
  | zero => rw [rrF, if_neg h]; rfl
  | succ n => rw [rrF, if_neg h]; rfl

theorem rrF_zero (a : List Char) (i : Nat)
    (h : b2jGet (b2jOf a) (a.getD i ' ') = []) : rrF a i = 0 := by
  cases i with
  | zero => rw [rrF, if_pos h]
  | succ n => rw [rrF, if_pos h]

theorem takeWhile_eq_of_all {α : Type} (p : α → Bool) :
    ∀ (l : List α), (∀ x ∈ l, p x) → l.takeWhile p = l := by
  intro l
  induction l with
  | nil => intro _; rfl
  | cons x l ih =>
    intro h
    rw [List.takeWhile_cons, if_pos (h x (by simp))]
    rw [ih (fun y hy => h y (by simp [hy]))]

theorem getPrev_le_of_le {f g : Nat → Nat} (h : ∀ x, f x ≤ g x) :
    ∀ j, getPrev f j ≤ getPrev g j := by
  intro j
  cases j with
  | zero => exact le_refl 0
  | succ n => exact h n

theorem getPrev_le_const {f : Nat → Nat} {c : Nat} (h : ∀ x, f x ≤ c) :
    ∀ j, getPrev f j ≤ c := by
  intro j
  cases j with
  | zero => exact Nat.zero_le c
  | succ n => exact h n

/-- Inner-loop invariant for the self-comparison `similar(a, a)`: row
values stay below the surviving-run lengths, the diagonal entry of the
row is computed exactly, and the best block stays on the diagonal (the
strict-improvement test rejects every off-diagonal candidate). -/
theorem innerLoop_self (a : List Char) (i : Nat) :
    ∀ (js : List Nat) (f acc : Nat → Nat) (best : Nat × Nat × Nat),
      (∀ j ∈ js, j ∈ b2jGet (b2jOf a) (a.getD i ' ')) →
      List.Pairwise (· < ·) js →
      (∀ x, f x ≤ rrF a x) →
      (∀ x, f x ≤ getPrev (rrF a) i) →
      getPrev f i = getPrev (rrF a) i →
      best.1 = best.2.1 →
      (i ∈ js ∨ rrF a i ≤ best.2.2) →
      (∀ x, x < i → rrF a x ≤ best.2.2) →
      (∀ x, acc x ≤ rrF a x) →
      (∀ x, acc x ≤ rrF a i) →
      (acc i = rrF a i ∨ i ∈ js) →
      (∀ x, (innerLoop i f js acc best).1 x ≤ rrF a x) ∧
      (∀ x, (innerLoop i f js acc best).1 x ≤ rrF a i) ∧
      (innerLoop i f js acc best).1 i = rrF a i ∧
      (innerLoop i f js acc best).2.1 = (innerLoop i f js acc best).2.2.1 ∧
      best.2.2 ≤ (innerLoop i f js acc best).2.2.2 ∧
      rrF a i ≤ (innerLoop i f js acc best).2.2.2 := by
  intro js
  induction js with
  | nil =>
    intro f acc best hmem hpw hf1 hf2 hf3 hb1 hb2 hb3 ha1 ha2 ha3
    refine ⟨ha1, ha2, ?_, hb1, le_refl _, ?_⟩
    · rcases ha3 with h | h
      · exact h
      · simp at h
    · rcases hb2 with h | h
      · simp at h
      · exact h
  | cons j js ih =>
    intro f acc best hmem hpw hf1 hf2 hf3 hb1 hb2 hb3 ha1 ha2 ha3
    have hjmem : j ∈ b2jGet (b2jOf a) (a.getD i ' ') := hmem j (by simp)
    have hne : b2jGet (b2jOf a) (a.getD i ' ') ≠ [] :=
      List.ne_nil_of_mem hjmem
    have hchar : a.getD j ' ' = a.getD i ' ' := (b2jGet_char a _ j hjmem).1
    have hneJ : b2jGet (b2jOf a) (a.getD j ' ') ≠ [] := by
      rw [hchar]; exact hne
    have hrrI : rrF a i = getPrev (rrF a) i + 1 := rrF_pos a i hne
    have hrrJ : rrF a j = getPrev (rrF a) j + 1 := rrF_pos a j hneJ
    have hkJ : getPrev f j + 1 ≤ rrF a j := by
      have := getPrev_le_of_le hf1 j
      omega
    have hkI : getPrev f j + 1 ≤ rrF a i := by
      have := getPrev_le_const hf2 j
      omega
    have hmem' : ∀ x ∈ js, x ∈ b2jGet (b2jOf a) (a.getD i ' ') :=
      fun x hx => hmem x (List.mem_cons_of_mem _ hx)
    have hpw' : List.Pairwise (· < ·) js := (List.pairwise_cons.mp hpw).2
    have ha1' : ∀ x, (fun x => if x = j then getPrev f j + 1 else acc x) x ≤
        rrF a x := by
      intro x
      by_cases hx : x = j
      · subst hx; simp only [if_pos rfl]; exact hkJ
      · simp only [if_neg hx]; exact ha1 x
    have ha2' : ∀ x, (fun x => if x = j then getPrev f j + 1 else acc x) x ≤
        rrF a i := by
      intro x
      by_cases hx : x = j
      · subst hx; simp only [if_pos rfl]; exact hkI
      · simp only [if_neg hx]; exact ha2 x
    simp only [innerLoop]
    by_cases hji : j = i
    · subst hji
      have hkEq : getPrev f j + 1 = rrF a j := by
        rw [hf3]
        omega
      have ha3' : (fun x => if x = j then getPrev f j + 1 else acc x) j =
          rrF a j ∨ j ∈ js := by
        left; simp only [if_pos rfl]; exact hkEq
      by_cases hlt : best.2.2 < getPrev f j + 1
      · rw [if_pos hlt]
        have h := ih f (fun x => if x = j then getPrev f j + 1 else acc x)
          (j + 1 - (getPrev f j + 1), j + 1 - (getPrev f j + 1),
            getPrev f j + 1)
          hmem' hpw' hf1 hf2 hf3 rfl
          (Or.inr (le_of_eq hkEq.symm))
          (fun x hx => le_trans (hb3 x hx) (le_of_lt hlt))
          ha1' ha2' ha3'
        refine ⟨h.1, h.2.1, h.2.2.1, h.2.2.2.1, ?_, h.2.2.2.2.2⟩
        have h5 : getPrev f j + 1 ≤ (innerLoop j f js
            (fun x => if x = j then getPrev f j + 1 else acc x)
            (j + 1 - (getPrev f j + 1), j + 1 - (getPrev f j + 1),
              getPrev f j + 1)).2.2.2 := h.2.2.2.2.1
        omega
      · rw [if_neg hlt]
        have hb2'' : rrF a j ≤ best.2.2 := by omega
        exact ih f _ _ hmem' hpw' hf1 hf2 hf3 hb1 (Or.inr hb2'')
          hb3 ha1' ha2' ha3'
    · have hnoupd : ¬(best.2.2 < getPrev f j + 1) := by
        rcases Nat.lt_or_ge j i with hji2 | hji2
        · have h1 : rrF a j ≤ best.2.2 := hb3 j hji2
          omega
        · have hji3 : i < j := by omega
          have hnotin : i ∉ j :: js := by
            intro hin
            rcases List.mem_cons.mp hin with h | h
            · omega
            · have h2 := (List.pairwise_cons.mp hpw).1 i h
              omega
          have hbI : rrF a i ≤ best.2.2 := by
            rcases hb2 with h | h
            · exact absurd h hnotin
            · exact h
          omega
      rw [if_neg hnoupd]
      have ha3' : (fun x => if x = j then getPrev f j + 1 else acc x) i =
          rrF a i ∨ i ∈ js := by
        rcases ha3 with h | h
        · left
          show (if i = j then getPrev f j + 1 else acc i) = rrF a i
          rw [if_neg (fun he : i = j => hji he.symm)]
          exact h
        · rcases List.mem_cons.mp h with h' | h'
          · exact absurd h'.symm hji
          · exact Or.inr h'
      have hb2' : i ∈ js ∨ rrF a i ≤ best.2.2 := by
        rcases hb2 with h | h
        · rcases List.mem_cons.mp h with h' | h'
          · exact absurd h'.symm hji
          · exact Or.inl h'
        · exact Or.inr h
      exact ih f _ _ hmem' hpw' hf1 hf2 hf3 hb1 hb2' hb3 ha1' ha2' ha3'

/-- Outer-loop invariant for the self comparison: the best block stays
on the diagonal. -/
theorem outerLoop_self (a : List Char) :
    ∀ (cnt i : Nat) (f : Nat → Nat) (best : Nat × Nat × Nat),
      i + cnt ≤ a.length →
      (∀ x, f x ≤ rrF a x) →
      (∀ x, f x ≤ getPrev (rrF a) i) →
      getPrev f i = getPrev (rrF a) i →
      best.1 = best.2.1 →
      (∀ x, x < i → rrF a x ≤ best.2.2) →
      (outerLoop a (b2jOf a) 0 a.length i cnt f best).1 =
        (outerLoop a (b2jOf a) 0 a.length i cnt f best).2.1 := by
  intro cnt
  induction cnt with
  | zero => intro i f best _ _ _ _ hb1 _; exact hb1
  | succ cnt ih =>
    intro i f best hcnt hf1 hf2 hf3 hb1 hb3
    have hi : i < a.length := by omega
    simp only [outerLoop]
    have hall : ∀ j ∈ b2jGet (b2jOf a) (a.getD i ' '), j < a.length :=
      fun j hj => (b2jGet_char a _ j hj).2
    have hfe : (b2jGet (b2jOf a) (a.getD i ' ')).filter
        (fun j => decide (0 ≤ j)) = b2jGet (b2jOf a) (a.getD i ' ') := by
      apply List.filter_eq_self.mpr
      intro x _
      simp
    have htw : ((b2jGet (b2jOf a) (a.getD i ' ')).filter
        (fun j => decide (0 ≤ j))).takeWhile (fun j => decide (j < a.length)) =
        b2jGet (b2jOf a) (a.getD i ' ') := by
      rw [hfe]
      apply takeWhile_eq_of_all
      intro x hx
      simpa using hall x hx
    rw [htw]
    have hb2 : i ∈ b2jGet (b2jOf a) (a.getD i ' ') ∨
        rrF a i ≤ best.2.2 := by
      rcases b2jGet_self_mem a i hi with h | h
      · right
        rw [rrF_zero a i h]
        exact Nat.zero_le _
      · left; exact h
    have h := innerLoop_self a i (b2jGet (b2jOf a) (a.getD i ' '))
      f (fun _ => 0) best (fun j hj => hj) (b2jGet_sorted a _)
      hf1 hf2 hf3 hb1 hb2 hb3 (fun x => Nat.zero_le _) (fun x => Nat.zero_le _)
      (by
        rcases b2jGet_self_mem a i hi with h | h
        · left
          rw [rrF_zero a i h]
        · right; exact h)
    apply ih (i + 1) _ _ (by omega) h.1
      (fun x => by
        have := h.2.1 x
        simpa [getPrev] using this)
      (by
        show (innerLoop i f _ (fun _ => 0) best).1 i = rrF a i
        exact h.2.2.1)
      h.2.2.2.1
      (fun x hx => by
        rcases Nat.lt_or_ge x i with hxi | hxi
        · exact le_trans (hb3 x hxi) (le_trans h.2.2.2.2.1 (le_refl _))
        · have hxe : x = i := by omega
          subst hxe
          exact h.2.2.2.2.2)

theorem extendLower_self (a : List Char) :
    ∀ (p k : Nat), extendLower a a 0 0 p (p, p, k) = (0, 0, p + k) := by
  intro p
  induction p with
  | zero =>
    intro k
    show (0, 0, k) = (0, 0, 0 + k)
    rw [Nat.zero_add]
  | succ p ih =>
    intro k
    rw [extendLower, if_pos ⟨Nat.succ_pos p, Nat.succ_pos p, rfl⟩]
    simp only [Nat.add_sub_cancel]
    rw [ih (k + 1)]
    have he : p + (k + 1) = p + 1 + k := by omega
    rw [he]

theorem extendUpper_self (a : List Char) :
    ∀ (fuel s : Nat), s ≤ a.length → a.length ≤ s + fuel →
      extendUpper a a a.length a.length fuel (0, 0, s) = (0, 0, a.length) := by
  intro fuel
  induction fuel with
  | zero =>
    intro s h1 h2
    have : s = a.length := by omega
    rw [this]
    rfl
  | succ fuel ih =>
    intro s h1 h2
    by_cases hs : s < a.length
    · rw [extendUpper, if_pos ⟨by omega, by omega, rfl⟩]
      exact ih (s + 1) (by omega) (by omega)
    · have : s = a.length := by omega
      subst this
      rw [extendUpper, if_neg (fun hc => by omega)]

/-- `find_longest_match` on identical strings over the full ranges
returns the whole-string block. -/
theorem find_longest_match_self (a : List Char) :
    find_longest_match a a (b2jOf a) 0 a.length 0 a.length =
      (0, 0, a.length) := by
  unfold find_longest_match
  have hdiag := outerLoop_self a (a.length - 0) 0 (fun _ => 0) (0, 0, 0)
    (by omega) (fun x => Nat.zero_le _) (fun x => Nat.zero_le _)
    (by cases a.length <;> rfl) rfl (fun x hx => by omega)
  have hflm : FlmInv 0 a.length 0 a.length
      (outerLoop a (b2jOf a) 0 a.length 0 (a.length - 0)
        (fun _ => 0) (0, 0, 0)) := by
    apply outerLoop_inv
    · omega
    · omega
    · intro j; exact ⟨by show 0 + 0 ≤ 0; omega, Or.inl rfl⟩
    · left; exact ⟨rfl, rfl, rfl⟩
  set t := outerLoop a (b2jOf a) 0 a.length 0 (a.length - 0)
    (fun _ => 0) (0, 0, 0) with ht
  obtain ⟨p, q, k⟩ := t
  have hpq : p = q := hdiag
  subst hpq
  have hpk : p + k ≤ a.length := by
    rw [flmInv_mk] at hflm
    rcases hflm with ⟨h0, h1, h2⟩ | ⟨h1, h2, h3, h4, h5⟩
    · omega
    · omega
  show extendUpper a a a.length a.length a.length
    (extendLower a a 0 0 p (p, p, k)) = (0, 0, a.length)
  rw [extendLower_self a p k]
  exact extendUpper_self a a.length (p + k) hpk (by omega)

theorem matchTotal_self (a : List Char) (fuel : Nat) :
    matchTotal a a (b2jOf a) (fuel + 1) 0 a.length 0 a.length = a.length := by
  rw [matchTotal]
  simp only [find_longest_match_self a]
  by_cases h : a.length = 0
  · simp [h]
  · simp [h]

/-- `similar(s, s) = 1` for every string `s`. -/
theorem similar_self (s : String) : similar s s = 1 := by
  unfold similar
  by_cases h : s.data.length + s.data.length = 0
  · rw [if_pos h]
  · rw [if_neg h]
    have hn : 0 < s.data.length := by omega
    obtain ⟨m, hm⟩ : ∃ m, s.data.length + s.data.length = m + 1 :=
      ⟨s.data.length + s.data.length - 1, by omega⟩
    rw [hm, matchTotal_self s.data m]
    rw [div_eq_one_iff_eq (by
      push_cast
      intro hc
      have : (s.data.length : ℚ) + s.data.length = 0 := by
        rw [hc]
      have h2 : s.data.length + s.data.length = 0 := by
        exact_mod_cast this
      omega)]
    push_cast
    ring

/-- One-step unfolding of `matchTotal`. -/
theorem matchTotal_succ (a b : List Char) (m : List (Char × List Nat))
    (fuel alo ahi blo bhi : Nat) :
    matchTotal a b m (fuel + 1) alo ahi blo bhi =
      (if (find_longest_match a b m alo ahi blo bhi).2.2 = 0 then 0
       else (find_longest_match a b m alo ahi blo bhi).2.2 +
         (if alo < (find_longest_match a b m alo ahi blo bhi).1 ∧
             blo < (find_longest_match a b m alo ahi blo bhi).2.1 then
           matchTotal a b m fuel alo
             (find_longest_match a b m alo ahi blo bhi).1 blo
             (find_longest_match a b m alo ahi blo bhi).2.1 else 0) +
         (if (find_longest_match a b m alo ahi blo bhi).1 +
               (find_longest_match a b m alo ahi blo bhi).2.2 < ahi ∧
             (find_longest_match a b m alo ahi blo bhi).2.1 +
               (find_longest_match a b m alo ahi blo bhi).2.2 < bhi then
           matchTotal a b m fuel
             ((find_longest_match a b m alo ahi blo bhi).1 +
               (find_longest_match a b m alo ahi blo bhi).2.2) ahi
             ((find_longest_match a b m alo ahi blo bhi).2.1 +
               (find_longest_match a b m alo ahi blo bhi).2.2) bhi
         else 0)) := rfl

/-- The total matched length never exceeds either range width. -/
theorem matchTotal_le (a b : List Char) (m : List (Char × List Nat)) :
    ∀ (fuel alo ahi blo bhi : Nat),
      matchTotal a b m fuel alo ahi blo bhi ≤ ahi - alo ∧
      matchTotal a b m fuel alo ahi blo bhi ≤ bhi - blo := by
  intro fuel
  induction fuel with
  | zero => intro alo ahi blo bhi; exact ⟨Nat.zero_le _, Nat.zero_le _⟩
  | succ fuel ih =>
    intro alo ahi blo bhi
    rw [matchTotal_succ]
    have hflm := find_longest_match_inv a b m alo ahi blo bhi
    set t := find_longest_match a b m alo ahi blo bhi with ht
    obtain ⟨i, j, k⟩ := t
    simp only at hflm ⊢
    rw [flmInv_mk] at hflm
    by_cases hk : k = 0
    · rw [if_pos hk]
      exact ⟨Nat.zero_le _, Nat.zero_le _⟩
    · have hb : 1 ≤ k ∧ alo ≤ i ∧ i + k ≤ ahi ∧ blo ≤ j ∧ j + k ≤ bhi := by
        rcases hflm with ⟨h0, _, _⟩ | h
        · exact absurd h0 hk
        · exact h
      rw [if_neg hk]
      have hl1 := (ih alo i blo j).1
      have hl2 := (ih alo i blo j).2
      have hr1 := (ih (i + k) ahi (j + k) bhi).1
      have hr2 := (ih (i + k) ahi (j + k) bhi).2
      obtain ⟨hb1, hb2, hb3, hb4, hb5⟩ := hb
      by_cases hcl : alo < i ∧ blo < j
      · by_cases hcr : i + k < ahi ∧ j + k < bhi
        · rw [if_pos hcl, if_pos hcr]
          exact ⟨by omega, by omega⟩
        · rw [if_pos hcl, if_neg hcr]
          exact ⟨by omega, by omega⟩
      · by_cases hcr : i + k < ahi ∧ j + k < bhi
        · rw [if_neg hcl, if_pos hcr]
          exact ⟨by omega, by omega⟩
        · rw [if_neg hcl, if_neg hcr]
          exact ⟨by omega, by omega⟩

/-- `similar` always lies in `[0, 1]`. -/
theorem similar_range (sa sb : String) :
    0 ≤ similar sa sb ∧ similar sa sb ≤ 1 := by
  unfold similar
  by_cases h : sa.data.length + sb.data.length = 0
  · rw [if_pos h]
    exact ⟨by norm_num, le_refl 1⟩
  · rw [if_neg h]
    have hms := matchTotal_le sa.data sb.data (b2jOf sb.data)
      (sa.data.length + sb.data.length) 0 sa.data.length 0 sb.data.length
    set ms := matchTotal sa.data sb.data (b2jOf sb.data)
      (sa.data.length + sb.data.length) 0 sa.data.length 0 sb.data.length
      with hdef
    have h2 : 2 * ms ≤ sa.data.length + sb.data.length := by
      have := hms.1
      have := hms.2
      omega
    have hden : (0 : ℚ) < ((sa.data.length : ℚ) + (sb.data.length : ℚ)) := by
      have hpos : 0 < sa.data.length + sb.data.length := by omega
      push_cast
      exact_mod_cast hpos
    constructor
    · apply div_nonneg
      · positivity
      · exact le_of_lt hden
    · rw [div_le_one hden]
      push_cast
      exact_mod_cast h2

theorem b2jGet_empty_of_not_mem (b : List Char) (c : Char) (h : c ∉ b) :
    b2jGet (b2jOf b) c = [] := by
  rcases b2jGet_b2jOf b c with hh | hh
  · exact hh
  · rw [hh]
    have he : b.enum.filter (fun jc => jc.2 = c) = [] := by
      apply List.filter_eq_nil.mpr
      intro jc hjc
      have hget := List.mem_enum_iff_getElem?.mp hjc
      have hmem : jc.2 ∈ b := by
        have hlt : jc.1 < b.length := by
          by_contra hge
          rw [List.getElem?_eq_none (by omega)] at hget
          exact Option.noConfusion hget
        rw [List.getElem?_eq_getElem hlt] at hget
        have : b[jc.1] = jc.2 := by
          exact (Option.some.injEq .. ▸ hget)
        rw [← this]
        exact List.getElem_mem hlt
      simp only [decide_eq_true_eq]
      intro hc
      rw [hc] at hmem
      exact h hmem
    rw [he]
    rfl

theorem outerLoop_empty (a : List Char) (m : List (Char × List Nat))
    (blo bhi : Nat) :
    ∀ (cnt i : Nat) (f : Nat → Nat) (best : Nat × Nat × Nat),
      i + cnt ≤ a.length →
      (∀ x, x < a.length → b2jGet m (a.getD x ' ') = []) →
      outerLoop a m blo bhi i cnt f best = best := by
  intro cnt
  induction cnt with
  | zero => intro i f best _ _; rfl
  | succ cnt ih =>
    intro i f best hcnt hemp
    simp only [outerLoop]
    rw [hemp i (by omega)]
    exact ih (i + 1) (fun _ => 0) best (by omega) hemp

theorem extendUpper_stuck (a b : List Char) (ahi bhi : Nat)
    (h : ¬(0 + 0 < ahi ∧ 0 + 0 < bhi ∧ a.getD (0 + 0) ' ' = b.getD (0 + 0) ' ')) :
    ∀ fuel, extendUpper a b ahi bhi fuel (0, 0, 0) = (0, 0, 0) := by
  intro fuel
  cases fuel with
  | zero => rfl
  | succ fuel => rw [extendUpper, if_neg h]

/-- With no common element, `find_longest_match` over the full ranges
returns the empty block. -/
theorem find_longest_match_disjoint (a b : List Char)
    (hd : ∀ c ∈ a, c ∉ b) :
    find_longest_match a b (b2jOf b) 0 a.length 0 b.length = (0, 0, 0) := by
  unfold find_longest_match
  have hemp : ∀ x, x < a.length → b2jGet (b2jOf b) (a.getD x ' ') = [] := by
    intro x hx
    apply b2jGet_empty_of_not_mem
    apply hd
    rw [List.getD_eq_getElem?_getD, List.getElem?_eq_getElem hx]
    exact List.getElem_mem hx
  rw [outerLoop_empty a (b2jOf b) 0 b.length (a.length - 0) 0
    (fun _ => 0) (0, 0, 0) (by omega) hemp]
  show extendUpper a b a.length b.length a.length
    (extendLower a b 0 0 0 (0, 0, 0)) = (0, 0, 0)
  have h1 : extendLower a b 0 0 0 (0, 0, 0) = (0, 0, 0) := rfl
  rw [h1]
  apply extendUpper_stuck
  intro hc
  obtain ⟨hc1, hc2, hc3⟩ := hc
  have ha : a.getD (0 + 0) ' ' ∈ a := by
    rw [List.getD_eq_getElem?_getD, List.getElem?_eq_getElem (by omega)]
    exact List.getElem_mem (by omega)
  have hb : b.getD (0 + 0) ' ' ∈ b := by
    rw [List.getD_eq_getElem?_getD, List.getElem?_eq_getElem (by omega)]
    exact List.getElem_mem (by omega)
  rw [hc3] at ha
  exact hd _ ha hb

/-- With no common element and at least one nonempty string, `similar`
is `0`. -/
theorem similar_disjoint (sa sb : String)
    (hd : ∀ c ∈ sa.data, c ∉ sb.data)
    (hne : sa.data.length + sb.data.length ≠ 0) : similar sa sb = 0 := by
  unfold similar
  rw [if_neg hne]
  obtain ⟨m, hm⟩ : ∃ m, sa.data.length + sb.data.length = m + 1 :=
    ⟨sa.data.length + sb.data.length - 1, by omega⟩
  rw [hm, matchTotal_succ, find_longest_match_disjoint sa.data sb.data hd]
  norm_num

/-- C5 counterexample: `similar` is NOT symmetric — difflib's ratio
depends on the argument order because `b2j` is built from the second
string only (`similar("tide","diet") = 1/4` but
`similar("diet","tide") = 1/2`); and two empty strings share no
characters yet score `1.0`, not `0.0`. -/
theorem C5_counterexample :
    similar "tide" "diet" = 1/4 ∧
    similar "diet" "tide" = 1/2 ∧
    similar "tide" "diet" ≠ similar "diet" "tide" ∧
    (∀ c ∈ "".data, c ∉ "".data) ∧ similar "" "" = 1 := by
  have hms1 : matchTotal "tide".data "diet".data (b2jOf "diet".data)
      ("tide".data.length + "diet".data.length) 0 "tide".data.length 0
      "diet".data.length = 1 := by decide
  have hms2 : matchTotal "diet".data "tide".data (b2jOf "tide".data)
      ("diet".data.length + "tide".data.length) 0 "diet".data.length 0
      "tide".data.length = 2 := by decide
  have h1 : similar "tide" "diet" = 1/4 := by
    simp only [similar]
    rw [if_neg (by decide)]
    rw [hms1]
    simp only [show "tide".data.length = 4 from rfl,
      show "diet".data.length = 4 from rfl]
    norm_num
  have h2 : similar "diet" "tide" = 1/2 := by
    simp only [similar]
    rw [if_neg (by decide)]
    rw [hms2]
    simp only [show "tide".data.length = 4 from rfl,
      show "diet".data.length = 4 from rfl]
    norm_num
  refine ⟨h1, h2, by rw [h1, h2]; norm_num, ?_, similar_self ""⟩
  intro c hc
  exact absurd hc (List.not_mem_nil c)

/-- C5 (amended): `similar` always lies in `[0, 1]` and equals `1` on
identical strings (including strings of length ≥ 200, where autojunk
prunes popular elements: the surviving best block is still diagonal and
the extension loops then sweep the whole string); it is NOT symmetric in
general; for two strings sharing no characters it equals `0` whenever at
least one string is nonempty (while `similar("","") = 1`). -/
theorem C5_amended (sa sb : String) :
    0 ≤ similar sa sb ∧ similar sa sb ≤ 1 ∧
    similar sa sa = 1 ∧
    ((∀ c ∈ sa.data, c ∉ sb.data) →
      sa.data.length + sb.data.length ≠ 0 → similar sa sb = 0) :=
  ⟨(similar_range sa sb).1, (similar_range sa sb).2, similar_self sa,
    fun hd hne => similar_disjoint sa sb hd hne⟩

theorem C5_witness :
    (0 ≤ similar "ab" "cd" ∧ similar "ab" "cd" ≤ 1 ∧
      similar "ab" "ab" = 1) ∧ similar "ab" "cd" = 0 :=
  ⟨⟨(C5_amended "ab" "cd").1, (C5_amended "ab" "cd").2.1,
    (C5_amended "ab" "cd").2.2.1⟩,
   (C5_amended "ab" "cd").2.2.2 (by decide) (by decide)⟩

/-! ### Idempotence of the normalizer (C6) -/

theorem char_toNat_ofNat (n : Nat) (h : n < 0xD800) :
    (Char.ofNat n).toNat = n := by
  rw [Char.ofNat, dif_pos (Or.inl h)]
  rfl

theorem char_le_toNat (a b : Char) : a ≤ b ↔ a.toNat ≤ b.toNat := by
  rw [Char.le_def, UInt32.le_def]
  exact Iff.rfl

theorem char_eq_toNat (a b : Char) : a = b ↔ a.toNat = b.toNat := by
  constructor
  · intro h; rw [h]
  · intro h
    apply Char.ext
    apply UInt32.ext
    exact h

theorem lookup_some_mem_keys {κ α : Type} [BEq κ] [LawfulBEq κ] :
    ∀ (m : List (κ × α)) (c : κ) (v : α),
      m.lookup c = some v → c ∈ m.map Prod.fst := by
  intro m
  induction m with
  | nil => intro c v h; exact Option.noConfusion h
  | cons e rest ih =>
    intro c v h
    obtain ⟨k0, v0⟩ := e
    rw [List.lookup] at h
    rcases hb : (c == k0) with _ | _
    · rw [hb] at h
      exact List.mem_cons_of_mem _ (ih c v h)
    · have : c = k0 := by simpa using hb
      simp [this]

theorem mem_keys_lookup_isSome {κ α : Type} [BEq κ] [LawfulBEq κ] :
    ∀ (m : List (κ × α)) (c : κ), c ∈ m.map Prod.fst →
      ∃ v, m.lookup c = some v := by
  intro m
  induction m with
  | nil => intro c h; simp at h
  | cons e rest ih =>
    intro c h
    obtain ⟨k0, v0⟩ := e
    by_cases hc : c = k0
    · subst hc
      exact ⟨v0, by simp [List.lookup]⟩
    · have hb : (c == k0) = false := by simpa using hc
      rw [List.map_cons, List.mem_cons] at h
      rcases h with h | h
      · exact absurd h hc
      · obtain ⟨v, hv⟩ := ih c h
        exact ⟨v, by rw [List.lookup, hb]; exact hv⟩

theorem nfkdTable_keys_range :
    ∀ k ∈ nfkdTable.map Prod.fst,
      0xC0 ≤ k.toNat ∧ k.toNat ≤ 0xFF ∧ k.toNat ≠ 0xD7 ∧
        k.toNat ≠ 0xDF := by decide

theorem nfkdTable_lower_upper :
    ∀ k ∈ nfkdTable.map Prod.fst, 0xE0 ≤ k.toNat → k.toNat ≤ 0xFE →
      Char.ofNat (k.toNat - 32) ∈ nfkdTable.map Prod.fst := by decide

theorem nfkdTable_values :
    ∀ e ∈ nfkdTable, ∀ b ∈ e.2, combining b = true ∨ b.toNat < 0xC0 := by
  decide

theorem lowerChar_cases (c : Char) :
    (65 ≤ c.toNat ∧ c.toNat ≤ 90 ∧
      lowerChar c = Char.ofNat (c.toNat + 32)) ∨
    (0xC0 ≤ c.toNat ∧ c.toNat ≤ 0xDE ∧ c.toNat ≠ 0xD7 ∧
      lowerChar c = Char.ofNat (c.toNat + 32)) ∨
    (¬(65 ≤ c.toNat ∧ c.toNat ≤ 90) ∧
      ¬(0xC0 ≤ c.toNat ∧ c.toNat ≤ 0xDE ∧ c.toNat ≠ 0xD7) ∧
      lowerChar c = c) := by
  unfold lowerChar
  by_cases h1 : ('A' ≤ c && c ≤ 'Z') = true
  · rw [if_pos h1]
    rw [Bool.and_eq_true, decide_eq_true_eq, decide_eq_true_eq] at h1
    rw [char_le_toNat, char_le_toNat] at h1
    exact Or.inl ⟨h1.1, h1.2, rfl⟩
  · rw [if_neg h1]
    rw [Bool.and_eq_true, decide_eq_true_eq, decide_eq_true_eq] at h1
    rw [char_le_toNat, char_le_toNat] at h1
    push_neg at h1
    rw [show ('A').toNat = 65 from rfl, show ('Z').toNat = 90 from rfl] at h1
    by_cases h2 : (0xC0 ≤ c.toNat && c.toNat ≤ 0xDE &&
        c.toNat ≠ 0xD7) = true
    · rw [if_pos h2]
      rw [Bool.and_eq_true, Bool.and_eq_true, decide_eq_true_eq,
        decide_eq_true_eq, decide_eq_true_eq] at h2
      exact Or.inr (Or.inl ⟨h2.1.1, h2.1.2, h2.2, rfl⟩)
    · rw [if_neg h2]
      rw [Bool.and_eq_true, Bool.and_eq_true, decide_eq_true_eq,
        decide_eq_true_eq, decide_eq_true_eq] at h2
      refine Or.inr (Or.inr ⟨?_, ?_, rfl⟩)
      · intro hc
        have := h1 (by exact_mod_cast hc.1)
        omega
      · intro hc
        exact h2 ⟨⟨hc.1, hc.2.1⟩, hc.2.2⟩

theorem lowerChar_idem (c : Char) : lowerChar (lowerChar c) = lowerChar c := by
  rcases lowerChar_cases c with ⟨h1, h2, he⟩ | ⟨h1, h2, h3, he⟩ | ⟨h1, h2, he⟩
  · rw [he]
    have ht : (Char.ofNat (c.toNat + 32)).toNat = c.toNat + 32 :=
      char_toNat_ofNat _ (by omega)
    rcases lowerChar_cases (Char.ofNat (c.toNat + 32)) with
      ⟨g1, g2, _⟩ | ⟨g1, g2, g3, _⟩ | ⟨g1, g2, ge⟩
    · rw [ht] at g1 g2; omega
    · rw [ht] at g1; omega
    · exact ge
  · rw [he]
    have ht : (Char.ofNat (c.toNat + 32)).toNat = c.toNat + 32 :=
      char_toNat_ofNat _ (by omega)
    rcases lowerChar_cases (Char.ofNat (c.toNat + 32)) with
      ⟨g1, g2, _⟩ | ⟨g1, g2, g3, _⟩ | ⟨g1, g2, ge⟩
    · rw [ht] at g1 g2; omega
    · rw [ht] at g1 g2; omega
    · exact ge
  · rw [he, he]

theorem lowerChar_lookup_none (c : Char)
    (h : nfkdTable.lookup c = none) :
    nfkdTable.lookup (lowerChar c) = none := by
  apply lookup_none_of_not_mem_keys
  intro hmem
  have hcnot : c ∉ nfkdTable.map Prod.fst := by
    intro hc
    obtain ⟨v, hv⟩ := mem_keys_lookup_isSome nfkdTable c hc
    rw [h] at hv
    exact Option.noConfusion hv
  rcases lowerChar_cases c with ⟨h1, h2, he⟩ | ⟨h1, h2, h3, he⟩ | ⟨_, _, he⟩
  · rw [he] at hmem
    have hr := (nfkdTable_keys_range _ hmem).1
    rw [char_toNat_ofNat _ (by omega)] at hr
    omega
  · rw [he] at hmem
    have ht : (Char.ofNat (c.toNat + 32)).toNat = c.toNat + 32 :=
      char_toNat_ofNat _ (by omega)
    have hup := nfkdTable_lower_upper _ hmem (by rw [ht]; omega)
      (by rw [ht]; omega)
    rw [ht] at hup
    have he2 : c.toNat + 32 - 32 = c.toNat := by omega
    rw [he2, Char.ofNat_toNat] at hup
    exact hcnot hup
  · rw [he] at hmem
    exact hcnot hmem

theorem combining_false_iff (c : Char) :
    combining c = false ↔ ¬(0x300 ≤ c.toNat ∧ c.toNat ≤ 0x36F) := by
  unfold combining
  rw [← Bool.not_eq_true, Bool.and_eq_true, decide_eq_true_eq,
    decide_eq_true_eq]

theorem lowerChar_not_combining (c : Char) (h : combining c = false) :
    combining (lowerChar c) = false := by
  rw [combining_false_iff] at h ⊢
  rcases lowerChar_cases c with ⟨h1, h2, he⟩ | ⟨h1, h2, h3, he⟩ | ⟨_, _, he⟩
  · rw [he, char_toNat_ofNat _ (by omega)]
    omega
  · rw [he, char_toNat_ofNat _ (by omega)]
    omega
  · rw [he]
    exact h

theorem lookup_some_entry_mem {κ α : Type} [BEq κ] [LawfulBEq κ] :
    ∀ (m : List (κ × α)) (c : κ) (v : α),
      m.lookup c = some v → (c, v) ∈ m := by
  intro m
  induction m with
  | nil => intro c v h; exact Option.noConfusion h
  | cons e rest ih =>
    intro c v h
    obtain ⟨k0, v0⟩ := e
    rw [List.lookup] at h
    rcases hb : (c == k0) with _ | _
    · rw [hb] at h
      exact List.mem_cons_of_mem _ (ih c v h)
    · rw [hb] at h
      have hc : c = k0 := by simpa using hb
      have hv : v0 = v := by simpa using h
      rw [hc, ← hv]
      simp

theorem nfkdChar_mem_lookup_none (c : Char) :
    ∀ d ∈ nfkdChar c, combining d = false → nfkdTable.lookup d = none := by
  intro d hd hcomb
  unfold nfkdChar at hd
  rcases hl : nfkdTable.lookup c with _ | v
  · rw [hl] at hd
    simp only [Option.getD_none, List.mem_singleton] at hd
    rw [hd]
    exact hl
  · rw [hl] at hd
    simp only [Option.getD_some] at hd
    have hent := lookup_some_entry_mem nfkdTable c v hl
    rcases nfkdTable_values (c, v) hent d hd with h | h
    · rw [h] at hcomb
      exact Bool.noConfusion hcomb
    · apply lookup_none_of_not_mem_keys
      intro hmem
      have := (nfkdTable_keys_range d hmem).1
      omega

theorem collapseAux_mem :
    ∀ (l : List Char) (b : Bool), ∀ c ∈ collapseAux b l,
      c = ' ' ∨ (c ∈ l ∧ pySpace c = false) := by
  intro l
  induction l with
  | nil => intro b c hc; simp [collapseAux] at hc
  | cons x xs ih =>
    intro b c hc
    rw [collapseAux] at hc
    by_cases hx : pySpace x
    · rw [if_pos hx] at hc
      by_cases hb : b
      · rw [if_pos hb] at hc
        rcases ih true c hc with h | ⟨h1, h2⟩
        · exact Or.inl h
        · exact Or.inr ⟨List.mem_cons_of_mem _ h1, h2⟩
      · rw [if_neg hb] at hc
        rcases List.mem_cons.mp hc with h | h
        · exact Or.inl h
        · rcases ih true c h with h' | ⟨h1, h2⟩
          · exact Or.inl h'
          · exact Or.inr ⟨List.mem_cons_of_mem _ h1, h2⟩
    · rw [if_neg hx] at hc
      rcases List.mem_cons.mp hc with h | h
      · subst h
        exact Or.inr ⟨by simp, by simpa using hx⟩
      · rcases ih false c h with h' | ⟨h1, h2⟩
        · exact Or.inl h'
        · exact Or.inr ⟨List.mem_cons_of_mem _ h1, h2⟩

theorem pyStrip_subset (l : List Char) : ∀ c ∈ pyStrip l, c ∈ l := by
  intro c hc
  unfold pyStrip at hc
  rw [List.mem_reverse] at hc
  have h1 := (List.dropWhile_sublist _).subset hc
  rw [List.mem_reverse] at h1
  exact (List.dropWhile_sublist _).subset h1

/-- The head of a character list is not whitespace (or the list is
empty). -/
def headOk : List Char → Bool
  | [] => true
  | c :: _ => !pySpace c

/-- Whitespace normal form: every whitespace character is a plain space
and no two adjacent characters are both whitespace. -/
def spacesOk (l : List Char) : Prop :=
  (∀ c ∈ l, pySpace c = true → c = ' ') ∧
  List.Chain' (fun a b => ¬(pySpace a = true ∧ pySpace b = true)) l

theorem headOk_collapse_true :
    ∀ (l : List Char), headOk (collapseAux true l) = true := by
  intro l
  induction l with
  | nil => rfl
  | cons x xs ih =>
    rw [collapseAux]
    by_cases hx : pySpace x
    · rw [if_pos hx, if_pos rfl]
      exact ih
    · rw [if_neg hx]
      simp only [headOk]
      simpa using hx

theorem spacesOk_collapse :
    ∀ (l : List Char) (b : Bool), spacesOk (collapseAux b l) := by
  have hmem : ∀ (l : List Char) (b : Bool), ∀ c ∈ collapseAux b l,
      pySpace c = true → c = ' ' := by
    intro l b c hc hsp
    rcases collapseAux_mem l b c hc with h | ⟨_, h2⟩
    · exact h
    · rw [hsp] at h2
      exact Bool.noConfusion h2
  have hchain : ∀ (l : List Char) (b : Bool),
      List.Chain' (fun a b => ¬(pySpace a = true ∧ pySpace b = true))
        (collapseAux b l) := by
    intro l
    induction l with
    | nil => intro b; exact List.chain'_nil
    | cons x xs ih =>
      intro b
      rw [collapseAux]
      by_cases hx : pySpace x
      · rw [if_pos hx]
        by_cases hb : b = true
        · rw [if_pos hb]
          exact ih true
        · rw [if_neg hb]
          apply List.chain'_cons'.mpr
          refine ⟨?_, ih true⟩
          intro y hy hcon
          have hh := headOk_collapse_true xs
          rcases hcx : collapseAux true xs with _ | ⟨z, zs⟩
          · rw [hcx] at hy
            simp at hy
          · rw [hcx] at hy hh
            simp only [List.head?_cons, Option.mem_some_iff] at hy
            simp only [headOk] at hh
            rw [hy] at hh
            rw [hcon.2] at hh
            simp at hh
      · rw [if_neg hx]
        apply List.chain'_cons'.mpr
        refine ⟨?_, ih false⟩
        intro y _ hcon
        rw [hcon.1] at hx
        exact hx rfl
  exact fun l b => ⟨hmem l b, hchain l b⟩

theorem spacesOk_tail {x : Char} {xs : List Char}
    (h : spacesOk (x :: xs)) : spacesOk xs :=
  ⟨fun c hc => h.1 c (List.mem_cons_of_mem _ hc),
   (List.chain'_cons'.mp h.2).2⟩

theorem collapse_fix :
    ∀ (l : List Char), spacesOk l →
      collapseAux false l = l ∧
      (headOk l = true → collapseAux true l = l) := by
  intro l
  induction l with
  | nil => exact fun _ => ⟨rfl, fun _ => rfl⟩
  | cons x xs ih =>
    intro hsp
    have ih' := ih (spacesOk_tail hsp)
    constructor
    · rw [collapseAux]
      by_cases hx : pySpace x
      · rw [if_pos hx, if_neg (by simp)]
        have hx' : x = ' ' := hsp.1 x (by simp) (by simpa using hx)
        have hxs : headOk xs = true := by
          rcases hxs : xs with _ | ⟨y, ys⟩
          · rfl
          · have hhead := (List.chain'_cons'.mp hsp.2).1
            rw [hxs] at hhead
            have := hhead y (by simp)
            simp only [headOk]
            by_cases hy : pySpace y
            · exact absurd ⟨by simpa using hx, by simpa using hy⟩ this
            · simpa using hy
        rw [ih'.2 hxs, hx']
      · rw [if_neg hx, ih'.1]
    · intro hh
      rw [collapseAux]
      have hx : ¬(pySpace x = true) := by
        simp only [headOk] at hh
        simpa using hh
      rw [if_neg (by simpa using hx), ih'.1]

theorem headOk_dropWhile :
    ∀ (l : List Char), headOk (l.dropWhile pySpace) = true := by
  intro l
  induction l with
  | nil => rfl
  | cons x xs ih =>
    rw [List.dropWhile_cons]
    by_cases hx : pySpace x
    · rw [if_pos (by simpa using hx)]
      exact ih
    · rw [if_neg (by simpa using hx)]
      simp only [headOk]
      simpa using hx

theorem dropWhile_of_headOk {l : List Char} (h : headOk l = true) :
    l.dropWhile pySpace = l := by
  rcases l with _ | ⟨x, xs⟩
  · rfl
  · simp only [headOk] at h
    rw [List.dropWhile_cons, if_neg (by simpa using h)]

theorem dropWhile_isSuffix (p : Char → Bool) :
    ∀ (l : List Char), ∃ t, l = t ++ l.dropWhile p := by
  intro l
  induction l with
  | nil => exact ⟨[], rfl⟩
  | cons x xs ih =>
    rw [List.dropWhile_cons]
    by_cases hx : p x = true
    · rw [if_pos hx]
      obtain ⟨t, ht⟩ := ih
      exact ⟨x :: t, by rw [List.cons_append, ← ht]⟩
    · rw [if_neg hx]
      exact ⟨[], rfl⟩

theorem pyStrip_fix {l : List Char} (h1 : headOk l = true)
    (h2 : headOk l.reverse = true) : pyStrip l = l := by
  unfold pyStrip
  rw [dropWhile_of_headOk h1, dropWhile_of_headOk h2, List.reverse_reverse]

theorem headOk_pyStrip_reverse (l : List Char) :
    headOk (pyStrip l).reverse = true := by
  unfold pyStrip
  rw [List.reverse_reverse]
  exact headOk_dropWhile _

theorem headOk_iff_head? (l : List Char) :
    headOk l = true ↔ ∀ c ∈ l.head?, pySpace c = false := by
  rcases l with _ | ⟨x, xs⟩
  · simp [headOk]
  · simp only [headOk, List.head?_cons, Option.mem_some_iff]
    constructor
    · intro h c hc
      rw [← hc]
      simpa using h
    · intro h
      have := h x rfl
      simpa using this

theorem headOk_pyStrip (l : List Char) : headOk (pyStrip l) = true := by
  rw [headOk_iff_head?]
  intro c hc
  unfold pyStrip at hc
  rw [List.head?_reverse] at hc
  rcases hY : (l.dropWhile pySpace).reverse.dropWhile pySpace
    with _ | ⟨y, ys⟩
  · rw [hY] at hc
    simp at hc
  · obtain ⟨t, ht⟩ := dropWhile_isSuffix pySpace (l.dropWhile pySpace).reverse
    have hYne : (l.dropWhile pySpace).reverse.dropWhile pySpace ≠ [] := by
      rw [hY]
      exact List.cons_ne_nil y ys
    have hlast : ((l.dropWhile pySpace).reverse.dropWhile pySpace).getLast? =
        (l.dropWhile pySpace).reverse.getLast? := by
      conv_rhs => rw [ht]
      rw [List.getLast?_append_of_ne_nil t hYne]
    rw [hlast] at hc
    rw [List.getLast?_reverse] at hc
    have hh := headOk_dropWhile l
    rw [headOk_iff_head?] at hh
    exact hh c hc

theorem spacesOk_reverse {l : List Char} (h : spacesOk l) :
    spacesOk l.reverse := by
  refine ⟨fun c hc => h.1 c (List.mem_reverse.mp hc), ?_⟩
  rw [List.chain'_reverse]
  exact h.2.imp (fun a b hab hc => hab ⟨hc.2, hc.1⟩)

theorem spacesOk_dropWhile {l : List Char} (h : spacesOk l) :
    spacesOk (l.dropWhile pySpace) := by
  obtain ⟨t, ht⟩ := dropWhile_isSuffix pySpace l
  refine ⟨fun c hc => h.1 c ((List.dropWhile_sublist _).subset hc), ?_⟩
  have h2 := h.2
  rw [ht] at h2
  exact (List.chain'_append.mp h2).2.1

theorem flatten_map_singleton {l : List Char}
    (h : ∀ c ∈ l, nfkdChar c = [c]) : (l.map nfkdChar).flatten = l := by
  induction l with
  | nil => rfl
  | cons x xs ih =>
    rw [List.map_cons, List.flatten_cons, h x (by simp),
      ih (fun c hc => h c (List.mem_cons_of_mem _ hc))]
    rfl

theorem map_self_of {α : Type} (f : α → α) :
    ∀ (l : List α), (∀ c ∈ l, f c = c) → l.map f = l := by
  intro l
  induction l with
  | nil => intro _; rfl
  | cons x xs ih =>
    intro h
    rw [List.map_cons, h x (by simp),
      ih (fun c hc => h c (List.mem_cons_of_mem _ hc))]

/-- The normalizer is idempotent. -/
theorem normalize_name_idem (s : String) :
    normalize_name (normalize_name s) = normalize_name s := by
  have hQ : ∀ c ∈ (normalize_name s).data,
      nfkdChar c = [c] ∧ combining c = false ∧ lowerChar c = c ∧
        (isWordChar c || pySpace c) = true := by
    intro c hc
    have hc' : c ∈ pyStrip (collapseAux false
        (((((s.data.map nfkdChar).flatten).filter
          (fun c => !combining c)).map lowerChar).filter
          (fun c => isWordChar c || pySpace c))) := hc
    have h1 := pyStrip_subset _ c hc'
    rcases collapseAux_mem _ false c h1 with h | ⟨h2, h3⟩
    · subst h
      exact ⟨rfl, rfl, rfl, rfl⟩
    · have h4 := List.mem_filter.mp h2
      obtain ⟨d, hd, hcd⟩ := List.mem_map.mp h4.1
      have h5 := List.mem_filter.mp hd
      obtain ⟨ld, hld, hdin⟩ := List.mem_flatten.mp h5.1
      obtain ⟨c0, _, hc0⟩ := List.mem_map.mp hld
      have hdcomb : combining d = false := by simpa using h5.2
      have hdnone : nfkdTable.lookup d = none :=
        nfkdChar_mem_lookup_none c0 d (hc0 ▸ hdin) hdcomb
      subst hcd
      refine ⟨?_, lowerChar_not_combining d hdcomb, lowerChar_idem d,
        by simpa using h4.2⟩
      unfold nfkdChar
      rw [lowerChar_lookup_none d hdnone]
      rfl
  have hsp : spacesOk (normalize_name s).data := by
    have h0 := spacesOk_collapse
      (((((s.data.map nfkdChar).flatten).filter
        (fun c => !combining c)).map lowerChar).filter
        (fun c => isWordChar c || pySpace c)) false
    exact spacesOk_reverse (spacesOk_dropWhile
      (spacesOk_reverse (spacesOk_dropWhile h0)))
  have hh1 : headOk (normalize_name s).data = true := headOk_pyStrip _
  have hh2 : headOk (normalize_name s).data.reverse = true :=
    headOk_pyStrip_reverse _
  have e1 : (((normalize_name s).data.map nfkdChar)).flatten =
      (normalize_name s).data :=
    flatten_map_singleton (fun c hc => (hQ c hc).1)
  have e2 : (normalize_name s).data.filter (fun c => !combining c) =
      (normalize_name s).data :=
    List.filter_eq_self.mpr (fun c hc => by simp [(hQ c hc).2.1])
  have e3 : (normalize_name s).data.map lowerChar =
      (normalize_name s).data :=
    map_self_of lowerChar _ (fun c hc => (hQ c hc).2.2.1)
  have e4 : (normalize_name s).data.filter
      (fun c => isWordChar c || pySpace c) = (normalize_name s).data :=
    List.filter_eq_self.mpr (fun c hc => (hQ c hc).2.2.2)
  have e5 : collapseAux false (normalize_name s).data =
      (normalize_name s).data := (collapse_fix _ hsp).1
  have e6 : pyStrip (normalize_name s).data = (normalize_name s).data :=
    pyStrip_fix hh1 hh2
  have hrfl : normalize_name (normalize_name s) =
      String.mk (pyStrip (collapseAux false
        (((((normalize_name s).data.map nfkdChar).flatten.filter
          (fun c => !combining c)).map lowerChar).filter
          (fun c => isWordChar c || pySpace c)))) := rfl
  rw [hrfl, e1, e2, e3, e4, e5, e6]

/-- C6: the normalizer is idempotent (`normalize(normalize(x)) ==
normalize(x)` both on strings and through the non-text guard), returns
empty text for every null or non-text input, and is
diacritic-insensitive on the example:
`normalize("Müller") = normalize("Muller") = "muller"`. -/
theorem C6_normalizer :
    (∀ s : String, normalize_name (normalize_name s) = normalize_name s) ∧
    (∀ v : Value, (∀ s, v ≠ Value.str s) → normalizeV v = "") ∧
    (∀ v : Value, normalize_name (normalizeV v) = normalizeV v) ∧
    normalize_name "Müller" = "muller" ∧
    normalize_name "Muller" = "muller" := by
  refine ⟨normalize_name_idem, ?_, ?_, by decide, rfl⟩
  · intro v hv
    cases v with
    | null => rfl
    | str s => exact absurd rfl (hv s)
    | int n => rfl
    | bool b => rfl
    | list l => rfl
    | obj o => rfl
  · intro v
    cases v with
    | str s => exact normalize_name_idem s
    | null => rfl
    | int n => rfl
    | bool b => rfl
    | list l => rfl
    | obj o => rfl

theorem C6_witness :
    normalizeV Value.null = "" ∧
    normalize_name (normalizeV (Value.int 3)) = normalizeV (Value.int 3) ∧
    normalize_name (normalize_name "Müller") = normalize_name "Müller" :=
  ⟨C6_normalizer.2.1 Value.null (fun s h => Value.noConfusion h),
   C6_normalizer.2.2.1 (Value.int 3),
   C6_normalizer.1 "Müller"⟩

theorem C9_witness :
    (0 : ℚ) < mkRat 9 10 ∧
    (find_missing_and_flag_duplicates [[("name", Value.str "x")]]
      (build_target_lookup []).1 (build_target_lookup []).2 [] []
      (mkRat 9 10)).length =
      ([[("name", Value.str "x")]] : List PRec).length :=
  ⟨by decide,
   (C9_empty_target [[("name", Value.str "x")]] [] [] (mkRat 9 10)
     (by decide)).2.1⟩
